import Mathlib

/-!
Verification development for the `defacc` dependency-graph orchestration
engine (package `irene`).  The Python sources are shallowly embedded as
executable Lean definitions:

* `irene/dependency_graph.py` — declaration records, record merging, the
  per-unit reference graph, the merged project graph and its SCC
  condensation ordering;
* `irene/workspace.py` — the transactional patch buffer `RustWorkspace`;
* `irene/pipeline.py` — the compile/validate/refine loop, dependency
  context digest, and the project-level orchestration.

External collaborators (the libclang walker, the DSPy translator, the
`patch` tool and `rustc`) are modelled as abstract function parameters:
they are the oracle boundary of the specification.  Python `dict`s are
modelled as association lists, Python `set`s as duplicate-free insertion
lists, and file-backed text as explicit `String` state.
-/

namespace Defacc

/-! ## Python-style primitives -/

/-- ASCII whitespace recognised by Python's `str.strip()`. -/
def isPyWS (c : Char) : Bool :=
  c == ' ' || c == '\t' || c == '\n' || c == '\r' ||
    c == Char.ofNat 11 || c == Char.ofNat 12

/-- Characters of a Python `str.strip()`:
drop leading and trailing whitespace. -/
def stripChars (l : List Char) : List Char :=
  ((l.dropWhile isPyWS).reverse.dropWhile isPyWS).reverse

/-- Python `str.strip()` on strings. -/
def pstrip (s : String) : String := ⟨stripChars s.data⟩

theorem stripChars_eq_nil {l : List Char} (h : ∀ c ∈ l, isPyWS c = true) :
    stripChars l = [] := by
  have h1 : l.dropWhile isPyWS = [] :=
    List.dropWhile_eq_nil_iff.mpr (fun c hc => h c hc)
  unfold stripChars
  rw [h1]
  simp

theorem pstrip_of_all_ws {s : String} (h : ∀ c ∈ s.data, isPyWS c = true) :
    pstrip s = "" := by
  unfold pstrip
  rw [stripChars_eq_nil h]

/-- Python set insertion (`set.add`):
insertion-ordered list without duplicates. -/
def setInsert {α : Type} [DecidableEq α] (s : List α) (a : α) : List α :=
  if a ∈ s then s else s ++ [a]

/-- Python `set.update`: fold insertion over the second operand. -/
def setUnion {α : Type} [DecidableEq α] (s t : List α) : List α :=
  t.foldl setInsert s

theorem mem_setInsert {α : Type} [DecidableEq α] {s : List α} {a x : α} :
    x ∈ setInsert s a ↔ x ∈ s ∨ x = a := by
  unfold setInsert
  by_cases h : a ∈ s
  · rw [if_pos h]
    exact ⟨Or.inl, fun hx => hx.elim id (fun hxa => hxa ▸ h)⟩
  · rw [if_neg h]
    simp

theorem mem_setUnion {α : Type} [DecidableEq α] {s t : List α} {x : α} :
    x ∈ setUnion s t ↔ x ∈ s ∨ x ∈ t := by
  induction t generalizing s with
  | nil => simp [setUnion]
  | cons b t ih =>
    show x ∈ setUnion (setInsert s b) t ↔ _
    rw [ih, mem_setInsert]
    constructor
    · rintro ((hx | hx) | hx)
      · exact Or.inl hx
      · exact Or.inr (by simp [hx])
      · exact Or.inr (by simp [hx])
    · rintro (hx | hx)
      · exact Or.inl (Or.inl hx)
      · rcases List.mem_cons.mp hx with hx | hx
        · exact Or.inl (Or.inr hx)
        · exact Or.inr hx

/-! ## Declaration records and merging (`irene/dependency_graph.py`) -/

/-- `RuleHint` from `irene/rule_analyzer.py`: the fields that participate
in merge deduplication. -/
structure RuleHint where
  category : String
  code_snippet : String
  suggested_rust : String
  explanation : String
  deriving DecidableEq, Repr

/-- Dedup key used by `ProjectGraphBuilder._merge_rule_hints`. -/
def hintKey (h : RuleHint) : String × String × String × String :=
  (h.category, h.code_snippet, h.suggested_rust, h.explanation)

/-- `DeclarationRecord` dataclass.  Python sets become insertion lists. -/
structure DeclarationRecord where
  decl_id : String
  name : String
  kind : String
  path : String
  line : Option Nat
  column : Option Nat
  code : String
  rule_hints : List RuleHint := []
  aliases : List String := []
  extra_locations : List (String × Option Nat × Option Nat) := []
  deriving DecidableEq, Repr

/-- `ProjectGraphBuilder._merge_rule_hints`: append each new hint whose
`(category, snippet, suggestion, explanation)` key is not yet seen; the
`seen` set starts from the existing hints' keys. -/
def mergeRuleHints (ex newHints : List RuleHint) : List RuleHint :=
  (newHints.foldl
    (fun (acc : List RuleHint × List (String × String × String × String)) h =>
      if hintKey h ∈ acc.2 then acc else (acc.1 ++ [h], acc.2 ++ [hintKey h]))
    (ex, ex.map hintKey)).1

/-- `ProjectGraphBuilder._merge_records`: upsert-merge of a duplicate
declaration sighting into the canonical record. -/
def mergeRecords (existing new_record : DeclarationRecord) : DeclarationRecord :=
  { existing with
    aliases :=
      if existing.name ≠ new_record.name then setInsert existing.aliases new_record.name
      else existing.aliases,
    extra_locations := setUnion existing.extra_locations new_record.extra_locations,
    rule_hints := mergeRuleHints existing.rule_hints new_record.rule_hints }

theorem mergeRuleHints_foldl_aux (t : List RuleHint) :
    ∀ hs : List RuleHint,
      (∀ k, k ∈ ((t.foldl
        (fun (acc : List RuleHint × List (String × String × String × String)) h =>
          if hintKey h ∈ acc.2 then acc else (acc.1 ++ [h], acc.2 ++ [hintKey h]))
        (hs, hs.map hintKey)).1.map hintKey) ↔
        k ∈ hs.map hintKey ∨ k ∈ t.map hintKey) := by
  induction t with
  | nil => intro hs k; simp
  | cons b t ih =>
    intro hs k
    simp only [List.foldl_cons]
    by_cases hb : hintKey b ∈ hs.map hintKey
    · rw [if_pos hb]
      rw [ih hs k]
      simp only [List.map_cons, List.mem_cons]
      constructor
      · rintro (h | h)
        · exact Or.inl h
        · exact Or.inr (Or.inr h)
      · rintro (h | h | h)
        · exact Or.inl h
        · exact Or.inl (h ▸ hb)
        · exact Or.inr h
    · rw [if_neg hb]
      have hrw : hs.map hintKey ++ [hintKey b] = (hs ++ [b]).map hintKey := by
        simp
      rw [hrw, ih (hs ++ [b]) k]
      simp only [List.map_append, List.map_cons, List.map_nil, List.mem_append,
        List.mem_cons, List.mem_singleton, List.not_mem_nil, or_false]
      tauto

theorem mem_map_hintKey_mergeRuleHints (ex newHints : List RuleHint) (k) :
    k ∈ (mergeRuleHints ex newHints).map hintKey ↔
      k ∈ ex.map hintKey ∨ k ∈ newHints.map hintKey :=
  mergeRuleHints_foldl_aux newHints ex k

theorem mergeRuleHints_keeps_existing (ex newHints : List RuleHint) :
    ∃ added : List RuleHint, mergeRuleHints ex newHints = ex ++ added := by
  suffices H : ∀ (t acc : List RuleHint) seen,
      ∃ added, (t.foldl
        (fun (acc : List RuleHint × List (String × String × String × String)) h =>
          if hintKey h ∈ acc.2 then acc else (acc.1 ++ [h], acc.2 ++ [hintKey h]))
        (acc, seen)).1 = acc ++ added by
    exact H newHints ex (ex.map hintKey)
  intro t
  induction t with
  | nil => intro acc seen; exact ⟨[], by simp⟩
  | cons b t ih =>
    intro acc seen
    simp only [List.foldl_cons]
    by_cases hb : hintKey b ∈ seen
    · rw [if_pos hb]; exact ih acc seen
    · rw [if_neg hb]
      obtain ⟨added, h⟩ := ih (acc ++ [b]) (seen ++ [hintKey b])
      exact ⟨[b] ++ added, by simpa using h⟩

/-! ## Workspace (`irene/workspace.py`, `RustWorkspace`)

The on-disk file is modelled as an explicit `String` buffer.  The external
`patch` utility is an abstract function from the (stripped) patch text and
the current buffer to a process result. -/

/-- Outcome of one run of the external `patch` process: its exit code, its
captured streams, and the buffer contents it leaves behind (a failing run
may leave a partially patched file). -/
structure PatchToolRun where
  returncode : Int
  stdout : String
  stderr : String
  newText : String
  deriving Repr

/-- Result of `RustWorkspace.apply_patch`, together with the buffer state
after the call and the number of invocations of the external `patch`
tool (0 or 1). -/
structure ApplyPatchResult where
  success : Bool
  error : String
  buffer : String
  toolCalls : Nat
  deriving Repr

/-- `RustWorkspace.apply_patch`: reject empty/whitespace-only diffs before
touching the `patch` tool; otherwise run the tool and report its
diagnostics (`stderr or stdout or "patch command failed"`). -/
def apply_patch (tool : String → String → PatchToolRun) (buffer patch_text : String) :
    ApplyPatchResult :=
  let patch := pstrip patch_text
  if patch = "" then
    { success := false, error := "Empty patch", buffer := buffer, toolCalls := 0 }
  else
    let result := tool patch buffer
    if result.returncode ≠ 0 then
      { success := false
        error :=
          if result.stderr ≠ "" then result.stderr
          else if result.stdout ≠ "" then result.stdout
          else "patch command failed"
        buffer := result.newText
        toolCalls := 1 }
    else
      { success := true, error := "", buffer := result.newText, toolCalls := 1 }

/-- `RustWorkspace.append_block`: idempotent labelled append.  The
duplicate check is Python's substring test `snippet in current_text()`. -/
def append_block (buffer : String) (label : Option String) (code : String) : String :=
  let snippet := pstrip code
  if snippet = "" then buffer
  else if snippet.data <:+: buffer.data then buffer
  else
    let needs_padding := buffer ≠ ""
    let labelPart :=
      match label with
      | some lab => if lab ≠ "" then "// " ++ lab ++ "\n" else ""
      | none => ""
    buffer ++ (if needs_padding then "\n\n" else "") ++ labelPart ++ snippet ++ "\n"

theorem append_block_contains (buffer : String) (label : Option String)
    (code : String) (hne : pstrip code ≠ "") :
    (pstrip code).data <:+: (append_block buffer label code).data := by
  unfold append_block
  rw [if_neg hne]
  by_cases hmem : (pstrip code).data <:+: buffer.data
  · rw [if_pos hmem]; exact hmem
  · rw [if_neg hmem]
    refine ⟨buffer.data ++ ((if buffer ≠ "" then "\n\n" else "") ++
      (match label with
        | some lab => if lab ≠ "" then "// " ++ lab ++ "\n" else ""
        | none => "")).data, "\n".data, ?_⟩
    simp only [String.data_append, List.append_assoc]

/-- C9: `append_block` is idempotent — if the exact trimmed code already
appears verbatim as a substring it is a no-op, so a repeated call leaves
the buffer in the same state as a single call. -/
theorem append_block_idem (buffer : String) (label : Option String) (code : String) :
    append_block (append_block buffer label code) label code =
      append_block buffer label code := by
  by_cases hne : pstrip code = ""
  · unfold append_block
    rw [if_pos hne, if_pos hne]
  · have hmem := append_block_contains buffer label code hne
    generalize hB : append_block buffer label code = B at hmem ⊢
    simp only [append_block]
    rw [if_neg hne, if_pos hmem]

/-! ## Directed graphs (`networkx.DiGraph` as used by the sources)

Nodes are kept in insertion order; there is at most one edge per
`(src, dst)` pair, whose `reason` attribute is overwritten on re-adding —
exactly `nx.DiGraph.add_edge` semantics. -/

structure DiGraph where
  nodes : List String
  edges : List (String × String × String)
  deriving DecidableEq, Repr

def emptyGraph : DiGraph := ⟨[], []⟩

/-- `DiGraph.add_node`: idempotent, insertion ordered. -/
def add_node (g : DiGraph) (n : String) : DiGraph :=
  if n ∈ g.nodes then g else { g with nodes := g.nodes ++ [n] }

/-- Replace the edge with key `(s, t)` (overwriting its reason) or append. -/
def upsertEdge : List (String × String × String) → String → String → String →
    List (String × String × String)
  | [], s, t, r => [(s, t, r)]
  | e :: es, s, t, r =>
    if e.1 = s ∧ e.2.1 = t then (s, t, r) :: es else e :: upsertEdge es s t r

/-- `DiGraph.add_edge`: adds missing endpoints as nodes, then upserts. -/
def add_edge (g : DiGraph) (s t r : String) : DiGraph :=
  let g1 := add_node (add_node g s) t
  { g1 with edges := upsertEdge g1.edges s t r }

def edgePairs (g : DiGraph) : List (String × String) :=
  g.edges.map (fun e => (e.1, e.2.1))

theorem mem_upsertEdge_self (es : List (String × String × String)) (s t r) :
    (s, t, r) ∈ upsertEdge es s t r := by
  induction es with
  | nil => simp [upsertEdge]
  | cons e es ih =>
    unfold upsertEdge
    by_cases h : e.1 = s ∧ e.2.1 = t
    · rw [if_pos h]; exact List.mem_cons_self _ _
    · rw [if_neg h]; exact List.mem_cons_of_mem _ ih

theorem mem_upsertEdge_of_ne {es : List (String × String × String)} {a b c : String}
    (h : (a, b, c) ∈ es) (hne : ¬(a = s ∧ b = t)) :
    (a, b, c) ∈ upsertEdge es s t r := by
  induction es with
  | nil => cases h
  | cons e es ih =>
    unfold upsertEdge
    rcases List.mem_cons.mp h with h | h
    · subst h
      rw [if_neg (by simpa using hne)]
      exact List.mem_cons_self _ _
    · by_cases he : e.1 = s ∧ e.2.1 = t
      · rw [if_pos he]; exact List.mem_cons_of_mem _ h
      · rw [if_neg he]; exact List.mem_cons_of_mem _ (ih h)

theorem mem_of_mem_upsertEdge {es : List (String × String × String)} {a b c s t r : String}
    (h : (a, b, c) ∈ upsertEdge es s t r) :
    (a, b, c) ∈ es ∨ (a, b, c) = (s, t, r) := by
  induction es with
  | nil => simpa [upsertEdge] using h
  | cons e es ih =>
    unfold upsertEdge at h
    by_cases he : e.1 = s ∧ e.2.1 = t
    · rw [if_pos he] at h
      rcases List.mem_cons.mp h with h | h
      · exact Or.inr h
      · exact Or.inl (List.mem_cons_of_mem _ h)
    · rw [if_neg he] at h
      rcases List.mem_cons.mp h with h | h
      · exact Or.inl (h ▸ List.mem_cons_self _ _)
      · rcases ih h with h | h
        · exact Or.inl (List.mem_cons_of_mem _ h)
        · exact Or.inr h

/-! ## Per-unit dependency graph (`build_dependency_graph`)

The libclang walk is abstracted: each top-level definition carries the
ordered list of relevant cursors (`CALL_EXPR` with its resolved callee
name, `TYPE_REF` with its resolved type name, or anything else) that
`walk_relevant_nodes` yields inside it, names already normalized. -/

inductive RefNode where
  | callExpr (target : String)
  | typeRef (target : String)
  | otherNode
  deriving DecidableEq, Repr

structure DefnEntry where
  name : String
  kind : String
  line : Option Nat
  column : Option Nat
  code : String
  refs : List RefNode
  deriving DecidableEq, Repr

/-- One edge-adding step of the inner cursor walk of
`build_dependency_graph`: calls keep self-edges, type references to the
source itself are skipped, and targets must be non-empty names of known
definitions. -/
def refStep (definitionNames : List String) (source_name : String)
    (g : DiGraph) (node : RefNode) : DiGraph :=
  match node with
  | .callExpr target_name =>
    if target_name ≠ "" ∧ target_name ∈ definitionNames then
      add_edge g source_name target_name "call"
    else g
  | .typeRef target_name =>
    if target_name = source_name then g
    else if target_name ≠ "" ∧ target_name ∈ definitionNames then
      add_edge g source_name target_name "type"
    else g
  | .otherNode => g

/-- `build_dependency_graph`: per-unit reference graph over the unit's
top-level definitions. -/
def build_dependency_graph (definitions : List DefnEntry) : DiGraph :=
  let definitionNames := definitions.map (·.name)
  definitions.foldl
    (fun g d => d.refs.foldl (refStep definitionNames d.name) (add_node g d.name))
    emptyGraph

theorem foldl_preserve {α β : Type} {P : α → Prop} (f : α → β → α) (l : List β)
    (init : α) (h0 : P init) (hstep : ∀ a b, P a → P (f a b)) : P (l.foldl f init) := by
  induction l generalizing init with
  | nil => exact h0
  | cons b t ih => exact ih _ (hstep _ _ h0)

theorem add_node_edges (g : DiGraph) (n : String) : (add_node g n).edges = g.edges := by
  unfold add_node
  split <;> rfl

theorem add_edge_edges (g : DiGraph) (s t r : String) :
    (add_edge g s t r).edges = upsertEdge g.edges s t r := by
  simp only [add_edge]
  rw [add_node_edges, add_node_edges]

theorem mem_add_edge_self (g : DiGraph) (s t r : String) :
    (s, t, r) ∈ (add_edge g s t r).edges := by
  rw [add_edge_edges]
  exact mem_upsertEdge_self _ _ _ _

theorem mem_add_edge_of_ne {g : DiGraph} {a b c : String} (s t r : String)
    (h : (a, b, c) ∈ g.edges) (hne : ¬(a = s ∧ b = t)) :
    (a, b, c) ∈ (add_edge g s t r).edges := by
  rw [add_edge_edges]
  exact mem_upsertEdge_of_ne h hne

theorem refStep_preserves_self_call {names : List String} {src : String}
    {g : DiGraph} {node : RefNode} {n : String}
    (h : (n, n, "call") ∈ g.edges) :
    (n, n, "call") ∈ (refStep names src g node).edges := by
  cases node with
  | callExpr target_name =>
    simp only [refStep]
    by_cases hc : target_name ≠ "" ∧ target_name ∈ names
    · rw [if_pos hc]
      by_cases hk : n = src ∧ n = target_name
      · obtain ⟨h1, h2⟩ := hk
        rw [← h1, ← h2]
        exact mem_add_edge_self _ _ _ _
      · exact mem_add_edge_of_ne _ _ _ h hk
    · rw [if_neg hc]; exact h
  | typeRef target_name =>
    simp only [refStep]
    by_cases hts : target_name = src
    · rw [if_pos hts]; exact h
    · rw [if_neg hts]
      by_cases hc : target_name ≠ "" ∧ target_name ∈ names
      · rw [if_pos hc]
        refine mem_add_edge_of_ne _ _ _ h ?_
        rintro ⟨h1, h2⟩
        exact hts (h2 ▸ h1 ▸ rfl)
      · rw [if_neg hc]; exact h
  | otherNode => exact h

theorem self_call_edge_after_refs (names : List String) (dname : String)
    (hname : dname ≠ "") (hmem : dname ∈ names) :
    ∀ (refs : List RefNode) (g : DiGraph),
      RefNode.callExpr dname ∈ refs →
      (dname, dname, "call") ∈ (refs.foldl (refStep names dname) g).edges := by
  intro refs
  induction refs with
  | nil => intro g h; cases h
  | cons r rs ih =>
    intro g h
    rcases List.mem_cons.mp h with h | h
    · subst h
      simp only [List.foldl_cons]
      refine foldl_preserve (P := fun g' : DiGraph => (dname, dname, "call") ∈ g'.edges)
        _ _ _ ?_ (fun a b ha => refStep_preserves_self_call ha)
      show (dname, dname, "call") ∈ (refStep names dname g (.callExpr dname)).edges
      simp only [refStep]
      rw [if_pos ⟨hname, hmem⟩]
      exact mem_add_edge_self _ _ _ _
    · exact ih _ h

/-- A direct-recursion call self-edge is retained by the per-unit graph. -/
theorem build_dependency_graph_self_call (definitions : List DefnEntry)
    (d : DefnEntry) (hd : d ∈ definitions)
    (href : RefNode.callExpr d.name ∈ d.refs) (hname : d.name ≠ "") :
    (d.name, d.name, "call") ∈ (build_dependency_graph definitions).edges := by
  unfold build_dependency_graph
  have hmem : d.name ∈ definitions.map (·.name) := List.mem_map_of_mem _ hd
  generalize definitions.map (·.name) = names at hmem
  revert hd
  suffices H : ∀ (l : List DefnEntry) (g : DiGraph), d ∈ l →
      (d.name, d.name, "call") ∈
        (l.foldl (fun g d => d.refs.foldl (refStep names d.name) (add_node g d.name)) g).edges by
    intro hd; exact H definitions emptyGraph hd
  intro l
  induction l with
  | nil => intro g h; cases h
  | cons e es ih =>
    intro g h
    rcases List.mem_cons.mp h with h | h
    · subst h
      simp only [List.foldl_cons]
      refine foldl_preserve (P := fun g' : DiGraph => (d.name, d.name, "call") ∈ g'.edges)
        _ _ _ ?_ ?_
      · exact self_call_edge_after_refs names d.name hname hmem d.refs _ href
      · intro a b ha
        refine foldl_preserve (P := fun g' : DiGraph => (d.name, d.name, "call") ∈ g'.edges)
          _ _ _ ?_ (fun a' b' ha' => refStep_preserves_self_call ha')
        show (d.name, d.name, "call") ∈ (add_node a b.name).edges
        rw [add_node_edges]
        exact ha
    · exact ih _ h

/-! ## Translation-unit data, builder and merged project graph
(`collect_translation_unit_data`, `ProjectGraphBuilder`) -/

structure TranslationUnitData where
  records : List DeclarationRecord
  edges : List (String × String × String)
  deriving DecidableEq, Repr

/-- `collect_translation_unit_data`: records (one per definition; location
as recorded on the per-unit graph node, source text via `extract_source`)
plus the per-unit edge set mapped onto stable declaration ids.
`stable_cursor_id` is abstracted as a per-unit function of the
definition's name (the cursor is determined by the name inside a unit). -/
def collect_translation_unit_data (tu_graph : DiGraph) (definitions : List DefnEntry)
    (stable_cursor_id : String → String) (rule_hints : List RuleHint)
    (source_path : String) : TranslationUnitData :=
  let records := definitions.map (fun d =>
    { decl_id := stable_cursor_id d.name
      name := d.name
      kind := d.kind
      path := source_path
      line := d.line
      column := d.column
      code := d.code
      rule_hints := rule_hints
      aliases := []
      extra_locations := [(source_path, d.line, d.column)] : DeclarationRecord })
  let edges := (tu_graph.edges.filter (fun e =>
      decide (e.1 ∈ definitions.map (·.name) ∧ e.2.1 ∈ definitions.map (·.name)))).map
    (fun e => (stable_cursor_id e.1, stable_cursor_id e.2.1, e.2.2))
  ⟨records, edges⟩

/-- Python in-place dict value update (`dict[key] = value` for present key;
appends for an absent one). -/
def assocUpdate {κ β : Type} [DecidableEq κ] : List (κ × β) → κ → β → List (κ × β)
  | [], k, v => [(k, v)]
  | (k', v') :: rest, k, v =>
    if k' = k then (k, v) :: rest else (k', v') :: assocUpdate rest k v

structure ProjectGraphBuilder where
  declarations : List (String × DeclarationRecord)
  edges : List (String × String × String)
  deriving Repr

/-- `ProjectGraphBuilder.add_translation_unit`: upsert every record
(merging duplicates) and union the edge set. -/
def add_translation_unit (b : ProjectGraphBuilder) (data : TranslationUnitData) :
    ProjectGraphBuilder :=
  { declarations := data.records.foldl (fun ds record =>
      match ds.lookup record.decl_id with
      | none => ds ++ [(record.decl_id, record)]
      | some existing => assocUpdate ds record.decl_id (mergeRecords existing record))
      b.declarations
    edges := setUnion b.edges data.edges }

structure ProjectGraph where
  graph : DiGraph
  declarations : List (String × DeclarationRecord)

/-- `ProjectGraphBuilder.build`: nodes from the declaration store, then
all accumulated edges. -/
def ProjectGraphBuilder.buildGraph (b : ProjectGraphBuilder) : DiGraph :=
  b.edges.foldl (fun g e => add_edge g e.1 e.2.1 e.2.2)
    (b.declarations.foldl (fun g kv => add_node g kv.1) emptyGraph)

def ProjectGraphBuilder.build (b : ProjectGraphBuilder) : ProjectGraph :=
  ⟨b.buildGraph, b.declarations⟩

/-- `build_project_graph` (project_scanner): fold all units that parsed
successfully into one builder, then build. -/
def build_project_graph (units : List TranslationUnitData) : ProjectGraph :=
  (units.foldl add_translation_unit ⟨[], []⟩).build

theorem edgePairs_add_edge_self (g : DiGraph) (s t r : String) :
    (s, t) ∈ edgePairs (add_edge g s t r) := by
  unfold edgePairs
  exact List.mem_map_of_mem _ (mem_add_edge_self g s t r)

theorem edgePairs_add_edge_mono {g : DiGraph} {p : String × String} (s t r : String)
    (h : p ∈ edgePairs g) : p ∈ edgePairs (add_edge g s t r) := by
  obtain ⟨e, he, hp⟩ := List.mem_map.mp h
  by_cases hk : e.1 = s ∧ e.2.1 = t
  · obtain ⟨h1, h2⟩ := hk
    rw [← hp]
    show (e.1, e.2.1) ∈ edgePairs (add_edge g s t r)
    rw [h1, h2]
    exact edgePairs_add_edge_self _ _ _ _
  · rw [← hp]
    refine List.mem_map_of_mem _ ?_
    show (e.1, e.2.1, e.2.2) ∈ (add_edge g s t r).edges
    exact mem_add_edge_of_ne s t r he hk

theorem edgePairs_buildGraph {b : ProjectGraphBuilder} {a c r : String}
    (h : (a, c, r) ∈ b.edges) : (a, c) ∈ edgePairs b.buildGraph := by
  unfold ProjectGraphBuilder.buildGraph
  generalize (b.declarations.foldl (fun g kv => add_node g kv.1) emptyGraph) = g0
  revert h
  suffices H : ∀ (es : List (String × String × String)) (g : DiGraph),
      (a, c, r) ∈ es →
      (a, c) ∈ edgePairs (es.foldl (fun g e => add_edge g e.1 e.2.1 e.2.2) g) by
    exact H b.edges g0
  intro es
  induction es with
  | nil => intro g h; cases h
  | cons e es ih =>
    intro g h
    rcases List.mem_cons.mp h with h | h
    · subst h
      simp only [List.foldl_cons]
      refine foldl_preserve (P := fun g' : DiGraph => (a, c) ∈ edgePairs g')
        _ _ _ ?_ (fun g' e' hg => edgePairs_add_edge_mono _ _ _ hg)
      exact edgePairs_add_edge_self _ _ _ _
    · exact ih _ h

theorem builder_edges_accumulate {units : List TranslationUnitData}
    {u : TranslationUnitData} (hu : u ∈ units) {e : String × String × String}
    (he : e ∈ u.edges) :
    e ∈ (units.foldl add_translation_unit ⟨[], []⟩).edges := by
  suffices H : ∀ (l : List TranslationUnitData) (b : ProjectGraphBuilder), u ∈ l →
      e ∈ (l.foldl add_translation_unit b).edges by
    exact H units ⟨[], []⟩ hu
  intro l
  induction l with
  | nil => intro b h; cases h
  | cons v vs ih =>
    intro b h
    rcases List.mem_cons.mp h with h | h
    · subst h
      simp only [List.foldl_cons]
      refine foldl_preserve (P := fun b' : ProjectGraphBuilder => e ∈ b'.edges) _ _ _ ?_ ?_
      · exact mem_setUnion.mpr (Or.inr he)
      · intro b' d hb
        exact mem_setUnion.mpr (Or.inl hb)
    · exact ih _ h

/-! ## SCC condensation and dependency order (`dependency_order`)

`nx.condensation` groups nodes into strongly connected components
(mutual-reachability classes), numbers the classes, and connects two
distinct class numbers whenever some graph edge crosses them;
`nx.topological_sort` then orders the class numbers, raising on a cycle
(modelled by `Option`).  Reachability is computed by saturating edge
expansion (`|nodes|` Bellman-Ford style rounds bound every shortest
path). -/

/-- One expansion round: append every edge target whose source is
already reached. -/
def expandStep (edges : List (String × String × String)) (s : List String) : List String :=
  edges.foldl (fun acc e => if e.1 ∈ acc ∧ e.2.1 ∉ acc then acc ++ [e.2.1] else acc) s

def reachableFrom (g : DiGraph) (u : String) : List String :=
  (List.range g.nodes.length).foldl (fun acc _ => expandStep g.edges acc) [u]

/-- The strongly connected component of `u`: nodes mutually reachable
with `u`, in node insertion order. -/
def sccOf (g : DiGraph) (u : String) : List String :=
  g.nodes.filter (fun v => decide (v ∈ reachableFrom g u ∧ u ∈ reachableFrom g v))

/-- The SCC classes in first-appearance order (`scc_list` of
`nx.condensation`). -/
def sccList (g : DiGraph) : List (List String) := (g.nodes.map (sccOf g)).dedup

/-- First index of an element in a list (`list.index`). -/
def listIndexOf {α : Type} [DecidableEq α] : List α → α → Nat
  | [], _ => 0
  | b :: t, a => if b = a then 0 else listIndexOf t a + 1

/-- `mapping[u]` of `nx.condensation`: the component number of `u`. -/
def sccId (g : DiGraph) (u : String) : Nat := listIndexOf (sccList g) (sccOf g u)

/-- The members of component number `c` (the nodes mapped to `c`). -/
def sccMembers (g : DiGraph) (c : Nat) : List String :=
  g.nodes.filter (fun u => sccId g u == c)

/-- Condensation edges: graph edges mapped to component numbers,
self-loops removed, deduplicated. -/
def condensationEdges (g : DiGraph) : List (Nat × Nat) :=
  ((g.edges.map (fun e => (sccId g e.1, sccId g e.2.1))).filter
    (fun p => p.1 != p.2)).dedup

/-- Kahn-style topological sort: repeatedly emit the first remaining node
without an incoming edge from the remaining set; `none` when stuck
(`nx.topological_sort` raising `NetworkXUnfeasible`). -/
def topoGo (edges : List (Nat × Nat)) : Nat → List Nat → Option (List Nat)
  | _, [] => some []
  | 0, _ :: _ => none
  | fuel + 1, remaining =>
    match remaining.find? (fun v => decide (∀ u ∈ remaining, (u, v) ∉ edges)) with
    | none => none
    | some v => (topoGo edges fuel (remaining.erase v)).map (fun rest => v :: rest)

def topoSort (edges : List (Nat × Nat)) (ns : List Nat) : Option (List Nat) :=
  topoGo edges ns.length ns

/-- `dependency_order`: SCC member groups in condensation topological
order (`none` models the unreachable cyclic-condensation exception). -/
def dependency_order (g : DiGraph) : Option (List (List String)) :=
  (topoSort (condensationEdges g) (List.range (sccList g).length)).map
    (fun order => order.map (fun comp => sccMembers g comp))

/-- `SCCComponent` dataclass. -/
structure SCCComponent where
  index : Nat
  declaration_ids : List String
  declarations : List DeclarationRecord
  deriving DecidableEq, Repr

/-- `ProjectGraph.components`: 1-based enumeration of the dependency
order, keeping only groups containing at least one declared node. -/
def ProjectGraph.components (pg : ProjectGraph) : Option (List SCCComponent) :=
  (dependency_order pg.graph).map (fun order =>
    (order.enumFrom 1).filterMap (fun p =>
      if p.2.any (fun node_id => (pg.declarations.lookup node_id).isSome) then
        some ⟨p.1, p.2,
          p.2.filterMap (fun node_id => pg.declarations.lookup node_id)⟩
      else none))

theorem topoGo_perm {edges : List (Nat × Nat)} :
    ∀ {fuel : Nat} {remaining o : List Nat},
      topoGo edges fuel remaining = some o → o.Perm remaining := by
  intro fuel
  induction fuel with
  | zero =>
    intro remaining o h
    cases remaining with
    | nil => simp [topoGo] at h; simp [← h]
    | cons a l => simp [topoGo] at h
  | succ fuel ih =>
    intro remaining o h
    cases remaining with
    | nil => simp [topoGo] at h; simp [← h]
    | cons a l =>
      simp only [topoGo] at h
      cases hfind : (a :: l).find? (fun v => decide (∀ u ∈ a :: l, (u, v) ∉ edges)) with
      | none => rw [hfind] at h; cases h
      | some v =>
        rw [hfind] at h
        simp only at h
        cases hrec : topoGo edges fuel ((a :: l).erase v) with
        | none => rw [hrec] at h; cases h
        | some rest =>
          rw [hrec] at h
          have hv : v ∈ a :: l := List.mem_of_find?_eq_some hfind
          have hperm := ih hrec
          have : o = v :: rest := by
            simpa using h.symm
          rw [this]
          exact ((hperm.cons v).trans (List.perm_cons_erase hv).symm)

theorem topoGo_sorted {edges : List (Nat × Nat)} :
    ∀ {fuel : Nat} {remaining o : List Nat},
      topoGo edges fuel remaining = some o →
      ∀ {a b : Nat}, (a, b) ∈ edges → a ∈ remaining → b ∈ remaining → a ≠ b →
        o.indexOf a < o.indexOf b := by
  intro fuel
  induction fuel with
  | zero =>
    intro remaining o h a b hab ha hb hne
    cases remaining with
    | nil => cases ha
    | cons x l => simp [topoGo] at h
  | succ fuel ih =>
    intro remaining o h a b hab ha hb hne
    cases remaining with
    | nil => cases ha
    | cons x l =>
      simp only [topoGo] at h
      cases hfind : (x :: l).find? (fun v => decide (∀ u ∈ x :: l, (u, v) ∉ edges)) with
      | none => rw [hfind] at h; cases h
      | some v =>
        rw [hfind] at h
        simp only at h
        cases hrec : topoGo edges fuel ((x :: l).erase v) with
        | none => rw [hrec] at h; cases h
        | some rest =>
          rw [hrec] at h
          have ho : o = v :: rest := by simpa using h.symm
          have hv : v ∈ x :: l := List.mem_of_find?_eq_some hfind
          have hnoin : ∀ u ∈ x :: l, (u, v) ∉ edges := by
            have := List.find?_some hfind
            exact of_decide_eq_true this
          subst ho
          by_cases hbv : b = v
          · exact absurd hab (hbv ▸ hnoin a ha)
          · have hb' : b ∈ (x :: l).erase v := (List.mem_erase_of_ne hbv).mpr hb
            by_cases hav : a = v
            · rw [hav, List.indexOf_cons_self]
              rw [List.indexOf_cons_ne _ (by exact fun hveq => hbv hveq.symm)]
              exact Nat.succ_pos _
            · have ha' : a ∈ (x :: l).erase v := (List.mem_erase_of_ne hav).mpr ha
              have := ih hrec hab ha' hb' hne
              rw [List.indexOf_cons_ne _ (fun hveq => hav hveq.symm),
                List.indexOf_cons_ne _ (fun hveq => hbv hveq.symm)]
              exact Nat.succ_lt_succ this

theorem topoSort_perm {edges : List (Nat × Nat)} {ns o : List Nat}
    (h : topoSort edges ns = some o) : o.Perm ns :=
  topoGo_perm h

theorem topoSort_sorted {edges : List (Nat × Nat)} {ns o : List Nat}
    (h : topoSort edges ns = some o) {a b : Nat} (hab : (a, b) ∈ edges)
    (ha : a ∈ ns) (hb : b ∈ ns) (hne : a ≠ b) :
    o.indexOf a < o.indexOf b :=
  topoGo_sorted h hab ha hb hne

theorem listIndexOf_lt_length {α : Type} [DecidableEq α] {l : List α} {a : α}
    (h : a ∈ l) : listIndexOf l a < l.length := by
  induction l with
  | nil => cases h
  | cons b t ih =>
    unfold listIndexOf
    by_cases hba : b = a
    · rw [if_pos hba]; exact Nat.succ_pos _
    · rw [if_neg hba]
      have : a ∈ t := by
        rcases List.mem_cons.mp h with h | h
        · exact absurd h.symm hba
        · exact h
      exact Nat.succ_lt_succ (ih this)

theorem listIndexOf_getElem {α : Type} [DecidableEq α] {l : List α}
    (hnd : l.Nodup) (c : Nat) (hc : c < l.length) : listIndexOf l l[c] = c := by
  induction l generalizing c with
  | nil => cases hc
  | cons b t ih =>
    cases c with
    | zero => simp [listIndexOf]
    | succ c =>
      have hc' : c < t.length := Nat.lt_of_succ_lt_succ hc
      have hmem : t[c] ∈ t := List.getElem_mem hc'
      have hne : b ≠ t[c] := by
        intro hb
        exact (List.nodup_cons.mp hnd).1 (hb ▸ hmem)
      show listIndexOf (b :: t) t[c] = c + 1
      unfold listIndexOf
      rw [if_neg hne, ih (List.nodup_cons.mp hnd).2 c hc']

theorem sccList_nodup (g : DiGraph) : (sccList g).Nodup := List.nodup_dedup _

theorem sccOf_mem_sccList {g : DiGraph} {u : String} (hu : u ∈ g.nodes) :
    sccOf g u ∈ sccList g :=
  List.mem_dedup.mpr (List.mem_map_of_mem _ hu)

theorem sccId_lt {g : DiGraph} {u : String} (hu : u ∈ g.nodes) :
    sccId g u < (sccList g).length :=
  listIndexOf_lt_length (sccOf_mem_sccList hu)

theorem mem_sccMembers {g : DiGraph} {c : Nat} {u : String} :
    u ∈ sccMembers g c ↔ u ∈ g.nodes ∧ sccId g u = c := by
  unfold sccMembers
  rw [List.mem_filter]
  constructor
  · rintro ⟨h1, h2⟩; exact ⟨h1, by simpa using h2⟩
  · rintro ⟨h1, h2⟩; exact ⟨h1, by simpa using h2⟩

theorem sccMembers_nonempty_declared {g : DiGraph}
    {decls : List (String × DeclarationRecord)}
    (hdecl : ∀ n ∈ g.nodes, (decls.lookup n).isSome) {c : Nat}
    (hc : c < (sccList g).length) :
    ∃ w ∈ sccMembers g c, (decls.lookup w).isSome := by
  have hmem : (sccList g)[c] ∈ sccList g := List.getElem_mem hc
  obtain ⟨w, hw, hwc⟩ := List.mem_map.mp (List.mem_dedup.mp hmem)
  have hid : sccId g w = c := by
    unfold sccId
    rw [hwc]
    exact listIndexOf_getElem (sccList_nodup g) c hc
  exact ⟨w, mem_sccMembers.mpr ⟨hw, hid⟩, hdecl w hw⟩

theorem mem_condensationEdges {g : DiGraph} {u v r : String}
    (h : (u, v, r) ∈ g.edges) (hne : sccId g u ≠ sccId g v) :
    (sccId g u, sccId g v) ∈ condensationEdges g := by
  unfold condensationEdges
  rw [List.mem_dedup, List.mem_filter]
  refine ⟨List.mem_map.mpr ⟨(u, v, r), h, rfl⟩, ?_⟩
  simpa using hne

/-- Core topological invariant: along any graph edge crossing two
distinct components, the source's component appears strictly earlier in
the condensation topological order. -/
theorem condensation_topo_lt {g : DiGraph} {t : List Nat}
    (ht : topoSort (condensationEdges g) (List.range (sccList g).length) = some t)
    {u v r : String} (he : (u, v, r) ∈ g.edges)
    (hu : u ∈ g.nodes) (hv : v ∈ g.nodes) (hne : sccId g u ≠ sccId g v) :
    t.indexOf (sccId g u) < t.indexOf (sccId g v) :=
  topoSort_sorted ht (mem_condensationEdges he hne)
    (List.mem_range.mpr (sccId_lt hu)) (List.mem_range.mpr (sccId_lt hv)) hne

theorem filterMap_eq_map_of_all {α β : Type} (l : List α) (f : α → Option β)
    (g : α → β) (h : ∀ x ∈ l, f x = some (g x)) : l.filterMap f = l.map g := by
  induction l with
  | nil => rfl
  | cons a t ih =>
    rw [List.filterMap_cons, h a (List.mem_cons_self _ _), List.map_cons,
      ih (fun x hx => h x (List.mem_cons_of_mem _ hx))]

theorem snd_mem_of_mem_enumFrom {α : Type} {l : List α} {n : Nat} {x : Nat × α}
    (h : x ∈ l.enumFrom n) : x.2 ∈ l := by
  obtain ⟨i, hi, hx⟩ := List.mem_iff_getElem.mp h
  have hi' : i < l.length := by simpa using hi
  rw [List.getElem_enumFrom] at hx
  rw [← hx]
  exact List.getElem_mem hi'

/-- Under a fully-declared node set the component filter never drops a
group: `components` is the plain 1-based enumeration of
`dependency_order`. -/
theorem components_eq_of_declared {g : DiGraph}
    {decls : List (String × DeclarationRecord)} {t : List Nat}
    (ht : topoSort (condensationEdges g) (List.range (sccList g).length) = some t)
    (hdecl : ∀ n ∈ g.nodes, (decls.lookup n).isSome) :
    ProjectGraph.components ⟨g, decls⟩ =
      some (((t.map (fun comp => sccMembers g comp)).enumFrom 1).map
        (fun p => ⟨p.1, p.2, p.2.filterMap (fun node_id => decls.lookup node_id)⟩)) := by
  unfold ProjectGraph.components dependency_order
  rw [ht]
  simp only [Option.map_some']
  congr 1
  refine filterMap_eq_map_of_all _ _ _ ?_
  intro p hp
  have hmem : p.2 ∈ t.map (fun comp => sccMembers g comp) :=
    snd_mem_of_mem_enumFrom hp
  obtain ⟨c, hc, hcp⟩ := List.mem_map.mp hmem
  have hct : c ∈ List.range (sccList g).length := (topoSort_perm ht).mem_iff.mp hc
  obtain ⟨w, hw, hwdecl⟩ :=
    sccMembers_nonempty_declared hdecl (List.mem_range.mp hct)
  rw [if_pos]
  exact List.any_eq_true.mpr ⟨w, hcp ▸ hw, by simpa using hwdecl⟩

theorem components_elim {g : DiGraph} {decls : List (String × DeclarationRecord)}
    {comps : List SCCComponent}
    (hcomp : ProjectGraph.components ⟨g, decls⟩ = some comps) :
    ∃ t, topoSort (condensationEdges g) (List.range (sccList g).length) = some t := by
  unfold ProjectGraph.components dependency_order at hcomp
  cases ht : topoSort (condensationEdges g) (List.range (sccList g).length) with
  | none => rw [ht] at hcomp; cases hcomp
  | some t => exact ⟨t, rfl⟩

/-- C2: every condensation edge respects the 1-based sequential
topological numbering of components. -/
theorem components_topological (g : DiGraph)
    (decls : List (String × DeclarationRecord)) (comps : List SCCComponent)
    (hcomp : ProjectGraph.components ⟨g, decls⟩ = some comps)
    (hdecl : ∀ n ∈ g.nodes, (decls.lookup n).isSome) :
    (∀ i (hi : i < comps.length), comps[i].index = i + 1) ∧
    (∀ u v r, (u, v, r) ∈ g.edges →
      ∀ X ∈ comps, ∀ Y ∈ comps, u ∈ X.declaration_ids → v ∈ Y.declaration_ids →
        X.index ≠ Y.index → X.index < Y.index) := by
  obtain ⟨t, ht⟩ := components_elim hcomp
  rw [components_eq_of_declared ht hdecl] at hcomp
  have hcomps := Option.some.inj hcomp
  subst hcomps
  have htnodup : t.Nodup :=
    ((topoSort_perm ht).nodup_iff).mpr (List.nodup_range _)
  have hget : ∀ i (hit : i < t.length)
      (hib : i < (((t.map (fun comp => sccMembers g comp)).enumFrom 1).map
        (fun p => (⟨p.1, p.2, p.2.filterMap (fun node_id => decls.lookup node_id)⟩ :
          SCCComponent))).length),
      (((t.map (fun comp => sccMembers g comp)).enumFrom 1).map
        (fun p => (⟨p.1, p.2, p.2.filterMap (fun node_id => decls.lookup node_id)⟩ :
          SCCComponent))).get ⟨i, hib⟩ =
      ⟨1 + i, sccMembers g t[i],
        (sccMembers g t[i]).filterMap (fun node_id => decls.lookup node_id)⟩ := by
    intro i hit hib
    rw [List.get_eq_getElem]
    rw [List.getElem_map, List.getElem_enumFrom]
    simp only [List.getElem_map]
  constructor
  · intro i hi
    rw [(List.get_eq_getElem _ ⟨i, hi⟩).symm]
    rw [hget i (by simpa using hi) hi]
    exact Nat.add_comm 1 i
  · intro u v r he X hX Y hY hu hv hne
    obtain ⟨i, hi, hXi⟩ := List.mem_iff_getElem.mp hX
    obtain ⟨j, hj, hYj⟩ := List.mem_iff_getElem.mp hY
    have hit : i < t.length := by simpa using hi
    have hjt : j < t.length := by simpa using hj
    rw [(List.get_eq_getElem _ ⟨i, hi⟩).symm] at hXi
    rw [(List.get_eq_getElem _ ⟨j, hj⟩).symm] at hYj
    rw [hget i hit hi] at hXi
    rw [hget j hjt hj] at hYj
    rw [← hXi] at hu hne ⊢
    rw [← hYj] at hv hne ⊢
    simp only at hu hv hne ⊢
    obtain ⟨hun, hui⟩ := mem_sccMembers.mp hu
    obtain ⟨hvn, hvj⟩ := mem_sccMembers.mp hv
    have hij : i ≠ j := by
      intro hij; exact hne (by rw [hij])
    have htij : t[i] ≠ t[j] := by
      intro hteq
      exact hij ((htnodup.getElem_inj_iff).mp hteq)
    have hlt := condensation_topo_lt ht he hun hvn (by rw [hui, hvj]; exact htij)
    rw [hui, hvj] at hlt
    rw [List.indexOf_getElem htnodup i hit, List.indexOf_getElem htnodup j hjt] at hlt
    exact Nat.add_lt_add_left hlt 1

/-! ## Bounded dependency context
(`IRENEPipeline._map_component_dependencies`,
`IRENEPipeline._build_dependency_context`) -/

/-- `node_to_component`: every declaration id maps to its component's
index (plain dict assignment, later components overwrite). -/
def node_to_component (components : List SCCComponent) : List (String × Nat) :=
  components.foldl
    (fun m component =>
      component.declaration_ids.foldl
        (fun m decl_id => assocUpdate m decl_id component.index) m)
    []

/-- `dependencies[dst_comp].add(src_comp)` on a `defaultdict(set)`. -/
def depsInsert (m : List (Nat × List Nat)) (k a : Nat) : List (Nat × List Nat) :=
  match m.lookup k with
  | none => m ++ [(k, [a])]
  | some s => assocUpdate m k (setInsert s a)

def depsGet (m : List (Nat × List Nat)) (k : Nat) : List Nat :=
  (m.lookup k).getD []

/-- `IRENEPipeline._map_component_dependencies`.  Python's
`if not (src_comp and dst_comp)` also treats index `0` as missing
(indices start at 1, so this is the `None` check in practice). -/
def map_component_dependencies (g : DiGraph) (components : List SCCComponent) :
    List (Nat × List Nat) :=
  let n2c := node_to_component components
  g.edges.foldl
    (fun deps e =>
      match n2c.lookup e.1, n2c.lookup e.2.1 with
      | some src_comp, some dst_comp =>
        if src_comp = 0 ∨ dst_comp = 0 then deps
        else if src_comp = dst_comp then deps
        else depsInsert deps dst_comp src_comp
      | _, _ => deps)
    []

/-- Summary entry dict produced by `_summaries_for_declarations`. -/
structure SummaryEntry where
  name : String
  kind : String
  arguments : String
  outputs : String
  function : String
  deriving DecidableEq, Repr

/-- Ascending insertion used to model Python's `sorted(...)` on a set of
component indices. -/
def insertSortedNat (a : Nat) : List Nat → List Nat
  | [] => [a]
  | b :: t => if a ≤ b then a :: b :: t else b :: insertSortedNat a t

def sortedNat (l : List Nat) : List Nat := l.foldr insertSortedNat []

theorem mem_insertSortedNat {a x : Nat} {l : List Nat} :
    x ∈ insertSortedNat a l ↔ x = a ∨ x ∈ l := by
  induction l with
  | nil => simp [insertSortedNat]
  | cons b t ih =>
    unfold insertSortedNat
    by_cases hab : a ≤ b
    · rw [if_pos hab]; simp
    · rw [if_neg hab]
      simp only [List.mem_cons, ih]
      tauto

theorem mem_sortedNat {l : List Nat} {x : Nat} : x ∈ sortedNat l ↔ x ∈ l := by
  induction l with
  | nil => simp [sortedNat]
  | cons b t ih =>
    show x ∈ insertSortedNat b (sortedNat t) ↔ _
    rw [mem_insertSortedNat, ih]
    simp

/-- The inner `for entry in entries` loop of `_build_dependency_context`:
emit one digest line per new declaration name, stopping once
`max_entries` names are collected.  Returns `(lines, seen_decls)`. -/
def emitEntries (max_entries : Nat) :
    List SummaryEntry → List String → List String → List String × List String
  | [], lines, seen_decls => (lines, seen_decls)
  | entry :: rest, lines, seen_decls =>
    if entry.name = "" ∨ entry.name ∈ seen_decls then
      emitEntries max_entries rest lines seen_decls
    else
      let lines := lines ++
        ["- " ++ entry.name ++ " (" ++ entry.kind ++ ") | params: " ++
          entry.arguments ++ " | returns: " ++ entry.outputs ++
          " | function: " ++ entry.function]
      let seen := seen_decls ++ [entry.name]
      if max_entries ≤ seen.length then (lines, seen)
      else emitEntries max_entries rest lines seen

/-- The `if entries:` block of `_build_dependency_context`: the "SCC n:"
header plus one line per new declaration summary.  Returns
`(lines, seen_decls)`. -/
def bfsEmit (summaries : List (Nat × List SummaryEntry)) (max_entries idx : Nat)
    (seenD lines : List String) : List String × List String :=
  let entries := (summaries.lookup idx).getD []
  if entries ≠ [] then
    emitEntries max_entries entries (lines ++ ["SCC " ++ toString idx ++ ":"]) seenD
  else (lines, seenD)

/-- The `if depth < max_hops:` block: push unseen parents with depth+1
(FIFO append on the right). -/
def bfsNextQueue (deps : List (Nat × List Nat)) (rest : List (Nat × Nat))
    (seenC' : List Nat) (idx depth max_hops : Nat) : List (Nat × Nat) :=
  if depth < max_hops then
    rest ++ ((sortedNat (depsGet deps idx)).filter
      (fun parent => parent ∉ seenC')).map (fun parent => (parent, depth + 1))
  else rest

/-- The `while queue and len(seen_decls) < max_entries` loop of
`_build_dependency_context` (fuelled; the wrapper passes enough fuel for
the finite dependency map).  Returns `(lines, seen_components,
seen_decls)`. -/
def bfsGo (deps : List (Nat × List Nat)) (summaries : List (Nat × List SummaryEntry))
    (max_hops max_entries : Nat) :
    Nat → List (Nat × Nat) → List Nat → List String → List String →
      List String × List Nat × List String
  | 0, _, seenC, seenD, lines => (lines, seenC, seenD)
  | _ + 1, [], seenC, seenD, lines => (lines, seenC, seenD)
  | fuel + 1, (idx, depth) :: rest, seenC, seenD, lines =>
    if max_entries ≤ seenD.length then (lines, seenC, seenD)
    else if idx ∈ seenC ∨ max_hops < depth then
      bfsGo deps summaries max_hops max_entries fuel rest seenC seenD lines
    else
      bfsGo deps summaries max_hops max_entries fuel
        (bfsNextQueue deps rest (seenC ++ [idx]) idx depth max_hops)
        (seenC ++ [idx])
        (bfsEmit summaries max_entries idx seenD lines).2
        (bfsEmit summaries max_entries idx seenD lines).1

/-- Fuel sufficient for the finite BFS (each step pops one queue entry;
pushes are bounded by the dependency map). -/
def bfsFuel (deps : List (Nat × List Nat)) (q0 : Nat) : Nat :=
  (deps.length + 2) *
    (q0 + (deps.length + 1) * (deps.foldl (fun n kv => n + kv.2.length) 0) + 2)

/-- `IRENEPipeline._build_dependency_context` up to the final join:
returns the digest lines with the visited component and declaration
sets. -/
def build_dependency_context_core (component_index : Nat)
    (component_dependencies : List (Nat × List Nat))
    (component_summaries : List (Nat × List SummaryEntry))
    (max_hops max_entries fuel : Nat) : List String × List Nat × List String :=
  let upstream := (component_dependencies.lookup component_index).getD []
  if upstream = [] then (["Known dependencies:"], [], [])
  else
    bfsGo component_dependencies component_summaries max_hops max_entries fuel
      ((sortedNat upstream).map (fun idx => (idx, 1))) [] [] ["Known dependencies:"]

/-- `IRENEPipeline._build_dependency_context`: the joined digest, empty
when nothing was gathered. -/
def build_dependency_context (component_index : Nat)
    (component_dependencies : List (Nat × List Nat))
    (component_summaries : List (Nat × List SummaryEntry))
    (max_hops max_entries : Nat) : String :=
  let upstream := (component_dependencies.lookup component_index).getD []
  let out := build_dependency_context_core component_index component_dependencies
    component_summaries max_hops max_entries
    (bfsFuel component_dependencies upstream.length)
  if out.1.length = 1 then "" else "\n".intercalate out.1

/-- Hop chains of the (inverted) component dependency relation:
`UpChain deps root c d` means `c` reaches `root` in `d` dependency
steps. -/
inductive UpChain (deps : List (Nat × List Nat)) (root : Nat) : Nat → Nat → Prop
  | base {b : Nat} : b ∈ depsGet deps root → UpChain deps root b 1
  | step {m b d : Nat} : UpChain deps root m d → b ∈ depsGet deps m →
      UpChain deps root b (d + 1)

theorem foldl_preserve_mem {α β : Type} {P : α → Prop} (f : α → β → α) (l : List β)
    (init : α) (h0 : P init) (hstep : ∀ a b, b ∈ l → P a → P (f a b)) :
    P (l.foldl f init) := by
  induction l generalizing init with
  | nil => exact h0
  | cons b t ih =>
    exact ih _ (hstep _ _ (List.mem_cons_self _ _) h0)
      (fun a x hx ha => hstep a x (List.mem_cons_of_mem _ hx) ha)

theorem lookup_assocUpdate {κ β : Type} [DecidableEq κ] [BEq κ] [LawfulBEq κ]
    (m : List (κ × β)) (k : κ) (v : β) (k' : κ) :
    (assocUpdate m k v).lookup k' = if k' = k then some v else m.lookup k' := by
  induction m with
  | nil =>
    show [(k, v)].lookup k' = _
    by_cases h : k' = k
    · simp [List.lookup, h]
    · simp [List.lookup, h, beq_false_of_ne h]
  | cons p rest ih =>
    obtain ⟨pk, pv⟩ := p
    show (assocUpdate ((pk, pv) :: rest) k v).lookup k' = _
    unfold assocUpdate
    by_cases hpk : pk = k
    · rw [if_pos hpk]
      by_cases h : k' = k
      · simp [List.lookup, h]
      · simp [List.lookup, h, beq_false_of_ne h, hpk]
    · rw [if_neg hpk]
      by_cases hpk' : k' = pk
      · have hk : ¬ k' = k := fun hh => hpk (hpk'.symm.trans hh)
        simp [List.lookup, hpk', hk, hpk]
      · simp [List.lookup, beq_false_of_ne hpk', ih]

theorem lookup_append {κ β : Type} [BEq κ] (m1 m2 : List (κ × β)) (k : κ) :
    (m1 ++ m2).lookup k =
      match m1.lookup k with
      | some v => some v
      | none => m2.lookup k := by
  induction m1 with
  | nil => simp [List.lookup]
  | cons p rest ih =>
    obtain ⟨pk, pv⟩ := p
    show ((pk, pv) :: (rest ++ m2)).lookup k = _
    cases hk : k == pk with
    | true => simp [List.lookup, hk]
    | false =>
      simp only [List.lookup, hk]
      exact ih

theorem depsGet_depsInsert (m : List (Nat × List Nat)) (k a k' : Nat) :
    depsGet (depsInsert m k a) k' =
      if k' = k then setInsert (depsGet m k) a else depsGet m k' := by
  unfold depsInsert depsGet
  cases hm : m.lookup k with
  | none =>
    rw [lookup_append]
    by_cases h : k' = k
    · subst h
      rw [hm]
      simp [List.lookup, setInsert]
    · cases hm' : m.lookup k' with
      | none => simp [List.lookup, beq_false_of_ne h, h]
      | some s => simp [List.lookup, h, hm']
  | some s =>
    rw [lookup_assocUpdate]
    by_cases h : k' = k
    · simp [h, hm]
    · simp [h]

theorem node_to_component_lookup {comps : List SCCComponent} {u : String} {a : Nat}
    (h : (node_to_component comps).lookup u = some a) :
    ∃ X ∈ comps, u ∈ X.declaration_ids ∧ X.index = a := by
  revert h
  suffices H : ∀ (m : List (String × Nat)),
      (∀ u' a', m.lookup u' = some a' → ∃ X ∈ comps, u' ∈ X.declaration_ids ∧ X.index = a') →
      ∀ u' a', (node_to_component comps).lookup u' = some a' →
        ∃ X ∈ comps, u' ∈ X.declaration_ids ∧ X.index = a' by
    intro h
    exact H [] (fun u' a' h' => by simp [List.lookup] at h') u a h
  intro m hm
  unfold node_to_component
  have := foldl_preserve_mem
    (P := fun m : List (String × Nat) => ∀ u' a', m.lookup u' = some a' →
      ∃ X ∈ comps, u' ∈ X.declaration_ids ∧ X.index = a')
    (fun m component =>
      component.declaration_ids.foldl
        (fun m decl_id => assocUpdate m decl_id component.index) m)
    comps []
    (fun u' a' h' => by simp [List.lookup] at h')
    ?_
  · exact this
  · intro acc X hX hacc
    refine foldl_preserve_mem
      (P := fun m : List (String × Nat) => ∀ u' a', m.lookup u' = some a' →
        ∃ Y ∈ comps, u' ∈ Y.declaration_ids ∧ Y.index = a')
      _ X.declaration_ids acc hacc ?_
    intro m' decl_id hdecl hm' u' a' h'
    rw [lookup_assocUpdate] at h'
    by_cases hu : u' = decl_id
    · rw [if_pos hu] at h'
      exact ⟨X, hX, hu ▸ hdecl, Option.some.inj h'⟩
    · rw [if_neg hu] at h'
      exact hm' u' a' h'

theorem map_component_dependencies_spec {g : DiGraph} {comps : List SCCComponent}
    {a b : Nat} (hb : b ∈ depsGet (map_component_dependencies g comps) a) :
    ∃ u v r, (u, v, r) ∈ g.edges ∧
      (node_to_component comps).lookup u = some b ∧
      (node_to_component comps).lookup v = some a ∧ b ≠ a := by
  revert hb
  unfold map_component_dependencies
  refine foldl_preserve_mem
    (P := fun deps : List (Nat × List Nat) => ∀ {a b : Nat}, b ∈ depsGet deps a →
      ∃ u v r, (u, v, r) ∈ g.edges ∧
        (node_to_component comps).lookup u = some b ∧
        (node_to_component comps).lookup v = some a ∧ b ≠ a)
    _ g.edges [] ?_ ?_ (a := a) (b := b)
  · intro a b hb
    simp [depsGet, List.lookup] at hb
  · intro deps e he hdeps a b hb
    cases hsrc : (node_to_component comps).lookup e.1 with
    | none => rw [hsrc] at hb; simp at hb; exact hdeps hb
    | some src_comp =>
      cases hdst : (node_to_component comps).lookup e.2.1 with
      | none => rw [hsrc, hdst] at hb; simp at hb; exact hdeps hb
      | some dst_comp =>
        rw [hsrc, hdst] at hb
        simp only at hb
        by_cases h0 : src_comp = 0 ∨ dst_comp = 0
        · rw [if_pos h0] at hb; exact hdeps hb
        · rw [if_neg h0] at hb
          by_cases hsd : src_comp = dst_comp
          · rw [if_pos hsd] at hb; exact hdeps hb
          · rw [if_neg hsd] at hb
            rw [depsGet_depsInsert] at hb
            by_cases ha : a = dst_comp
            · rw [if_pos ha] at hb
              subst ha
              rcases mem_setInsert.mp hb with hb | hb
              · exact hdeps hb
              · subst hb
                exact ⟨e.1, e.2.1, e.2.2, he, hsrc, hdst, hsd⟩
            · rw [if_neg ha] at hb
              exact hdeps hb

/-- Components reached through the dependency relation have strictly
smaller (earlier) indices. -/
theorem map_component_dependencies_lt {g : DiGraph}
    {decls : List (String × DeclarationRecord)} {comps : List SCCComponent}
    (hcomp : ProjectGraph.components ⟨g, decls⟩ = some comps)
    (hdecl : ∀ n ∈ g.nodes, (decls.lookup n).isSome) :
    ∀ a b, b ∈ depsGet (map_component_dependencies g comps) a → b < a := by
  intro a b hb
  obtain ⟨u, v, r, he, hu, hv, hne⟩ := map_component_dependencies_spec hb
  obtain ⟨X, hX, huX, hXi⟩ := node_to_component_lookup hu
  obtain ⟨Y, hY, hvY, hYi⟩ := node_to_component_lookup hv
  have hlt := (components_topological g decls comps hcomp hdecl).2
    u v r he X hX Y hY huX hvY (by rw [hXi, hYi]; exact hne)
  rw [hXi, hYi] at hlt
  exact hlt

theorem UpChain_lt {deps : List (Nat × List Nat)} {root : Nat}
    (hlt : ∀ a b, b ∈ depsGet deps a → b < a) :
    ∀ {c d : Nat}, UpChain deps root c d → c < root := by
  intro c d h
  induction h with
  | base hb => exact hlt _ _ hb
  | step _ hb ih => exact Nat.lt_trans (hlt _ _ hb) ih

theorem emitEntries_le {max_entries : Nat} :
    ∀ (entries : List SummaryEntry) (lines seen : List String),
      seen.length < max_entries →
      (emitEntries max_entries entries lines seen).2.length ≤ max_entries := by
  intro entries
  induction entries with
  | nil => intro lines seen h; exact Nat.le_of_lt h
  | cons entry rest ih =>
    intro lines seen h
    unfold emitEntries
    by_cases hskip : entry.name = "" ∨ entry.name ∈ seen
    · rw [if_pos hskip]; exact ih _ _ h
    · rw [if_neg hskip]
      simp only
      by_cases hfull : max_entries ≤ (seen ++ [entry.name]).length
      · rw [if_pos hfull]
        simpa using h
      · rw [if_neg hfull]
        exact ih _ _ (Nat.lt_of_not_le hfull)

theorem emitEntries_lockstep {max_entries : Nat} :
    ∀ (entries : List SummaryEntry) (lines seen : List String),
      (emitEntries max_entries entries lines seen).1.length + seen.length =
        lines.length + (emitEntries max_entries entries lines seen).2.length := by
  intro entries
  induction entries with
  | nil => intro lines seen; simp [emitEntries]
  | cons entry rest ih =>
    intro lines seen
    unfold emitEntries
    by_cases hskip : entry.name = "" ∨ entry.name ∈ seen
    · rw [if_pos hskip]; exact ih _ _
    · rw [if_neg hskip]
      simp only
      by_cases hfull : max_entries ≤ (seen ++ [entry.name]).length
      · rw [if_pos hfull]; simp; omega
      · rw [if_neg hfull]
        have := ih (lines ++
          ["- " ++ entry.name ++ " (" ++ entry.kind ++ ") | params: " ++
            entry.arguments ++ " | returns: " ++ entry.outputs ++
            " | function: " ++ entry.function]) (seen ++ [entry.name])
        simp at this ⊢
        omega

theorem bfsEmit_le {summaries : List (Nat × List SummaryEntry)}
    {max_entries idx : Nat} {seenD lines : List String}
    (h : seenD.length < max_entries) :
    (bfsEmit summaries max_entries idx seenD lines).2.length ≤ max_entries := by
  unfold bfsEmit
  by_cases he : (summaries.lookup idx).getD [] ≠ []
  · rw [if_pos he]
    exact emitEntries_le _ _ _ h
  · rw [if_neg he]
    exact Nat.le_of_lt h

theorem bfsNextQueue_mem {deps : List (Nat × List Nat)} {rest : List (Nat × Nat)}
    {seenC' : List Nat} {idx depth max_hops : Nat} {q : Nat × Nat}
    (h : q ∈ bfsNextQueue deps rest seenC' idx depth max_hops) :
    q ∈ rest ∨ (∃ parent, q = (parent, depth + 1) ∧ parent ∈ depsGet deps idx) := by
  unfold bfsNextQueue at h
  by_cases hd : depth < max_hops
  · rw [if_pos hd] at h
    rcases List.mem_append.mp h with h | h
    · exact Or.inl h
    · obtain ⟨parent, hp, hq⟩ := List.mem_map.mp h
      have hp' : parent ∈ sortedNat (depsGet deps idx) := List.mem_of_mem_filter hp
      exact Or.inr ⟨parent, hq.symm, mem_sortedNat.mp hp'⟩
  · rw [if_neg hd] at h
    exact Or.inl h

/-- BFS safety: every visited component has a dependency chain of length
between 1 and `max_hops` back to the root, and at most `max_entries`
declaration names are ever collected. -/
theorem bfsGo_spec (deps : List (Nat × List Nat))
    (summaries : List (Nat × List SummaryEntry)) (max_hops max_entries root : Nat) :
    ∀ (fuel : Nat) (queue : List (Nat × Nat)) (seenC : List Nat)
      (seenD lines : List String),
      (∀ p ∈ queue, 1 ≤ p.2 ∧ UpChain deps root p.1 p.2) →
      (∀ c ∈ seenC, ∃ d, 1 ≤ d ∧ d ≤ max_hops ∧ UpChain deps root c d) →
      seenD.length ≤ max_entries →
      (∀ c ∈ (bfsGo deps summaries max_hops max_entries fuel queue seenC seenD lines).2.1,
          ∃ d, 1 ≤ d ∧ d ≤ max_hops ∧ UpChain deps root c d) ∧
      (bfsGo deps summaries max_hops max_entries fuel queue
        seenC seenD lines).2.2.length ≤ max_entries := by
  intro fuel
  induction fuel with
  | zero =>
    intro queue seenC seenD lines _ hs hd
    exact ⟨hs, hd⟩
  | succ fuel ih =>
    intro queue seenC seenD lines hq hs hd
    cases queue with
    | nil => exact ⟨hs, hd⟩
    | cons p rest =>
      obtain ⟨idx, depth⟩ := p
      show (∀ c ∈ (bfsGo deps summaries max_hops max_entries (fuel + 1)
          ((idx, depth) :: rest) seenC seenD lines).2.1, _) ∧ _
      simp only [bfsGo]
      by_cases hfull : max_entries ≤ seenD.length
      · rw [if_pos hfull]
        exact ⟨hs, hd⟩
      · rw [if_neg hfull]
        by_cases hskip : idx ∈ seenC ∨ max_hops < depth
        · rw [if_pos hskip]
          exact ih rest seenC seenD lines
            (fun q hqq => hq q (List.mem_cons_of_mem _ hqq)) hs hd
        · rw [if_neg hskip]
          obtain ⟨hd1, hchain⟩ := hq (idx, depth) (List.mem_cons_self _ _)
          have hdepth : depth ≤ max_hops :=
            Nat.le_of_not_lt (fun hlt => hskip (Or.inr hlt))
          refine ih _ _ _ _ ?_ ?_ ?_
          · intro q hqq
            rcases bfsNextQueue_mem hqq with hqq | ⟨parent, hqp, hpmem⟩
            · exact hq q (List.mem_cons_of_mem _ hqq)
            · subst hqp
              exact ⟨Nat.le_add_left 1 depth, UpChain.step hchain hpmem⟩
          · intro c hc
            rcases List.mem_append.mp hc with hc | hc
            · exact hs c hc
            · have : c = idx := by simpa using hc
              exact this ▸ ⟨depth, hd1, hdepth, hchain⟩
          · exact bfsEmit_le (Nat.lt_of_not_le hfull)

/-- C7: the bounded dependency context over
`_map_component_dependencies` collects at most `max_entries` declaration
summaries, and every component whose summaries are included precedes the
root component in topological order (strictly smaller index) and reaches
it through the dependency relation within `max_hops` hops. -/
theorem dependency_context_bounded (g : DiGraph)
    (decls : List (String × DeclarationRecord)) (comps : List SCCComponent)
    (hcomp : ProjectGraph.components ⟨g, decls⟩ = some comps)
    (hdecl : ∀ n ∈ g.nodes, (decls.lookup n).isSome)
    (i : Nat) (summaries : List (Nat × List SummaryEntry))
    (max_hops max_entries fuel : Nat) :
    (build_dependency_context_core i (map_component_dependencies g comps)
      summaries max_hops max_entries fuel).2.2.length ≤ max_entries ∧
    ∀ c ∈ (build_dependency_context_core i (map_component_dependencies g comps)
        summaries max_hops max_entries fuel).2.1,
      c < i ∧ ∃ d, 1 ≤ d ∧ d ≤ max_hops ∧
        UpChain (map_component_dependencies g comps) i c d := by
  have hlt := map_component_dependencies_lt hcomp hdecl
  unfold build_dependency_context_core
  by_cases hup : ((map_component_dependencies g comps).lookup i).getD [] = []
  · rw [if_pos hup]
    refine ⟨by simp, ?_⟩
    intro c hc
    simp at hc
  · rw [if_neg hup]
    have hspec := bfsGo_spec (map_component_dependencies g comps) summaries
      max_hops max_entries i fuel
      ((sortedNat (((map_component_dependencies g comps).lookup i).getD [])).map
        (fun idx => (idx, 1)))
      [] [] ["Known dependencies:"]
      ?_ (by intro c hc; cases hc) (by simp)
    · obtain ⟨h1, h2⟩ := hspec
      refine ⟨h2, ?_⟩
      intro c hc
      obtain ⟨d, hd1, hd2, hchain⟩ := h1 c hc
      exact ⟨UpChain_lt hlt hchain, d, hd1, hd2, hchain⟩
    · intro q hqq
      obtain ⟨idx, hidx, hq⟩ := List.mem_map.mp hqq
      subst hq
      refine ⟨Nat.le_refl 1, UpChain.base ?_⟩
      exact mem_sortedNat.mp hidx

/-! ## Compile/validate/refine loop (`IRENEPipeline`)

The DSPy translator module is abstracted as a function from the
workspace view (after prompt assembly) and the accumulated compiler
errors to the raw `patch_diff` text; the Rust compiler as a function
from source text to `(success, diagnostics)`.  The `RuntimeError` raised
by `_generate_patch` on a blank diff is modelled with `Except`. -/

/-- `CompilationResult` dataclass (`errors = None` on success). -/
structure CompilationResult where
  success : Bool
  iterations : Nat
  errors : Option String
  deriving DecidableEq, Repr

/-- `IRENEPipeline._generate_patch`: one translator invocation; in the
patch-based flow `workspace_file` is always set, so a blank stripped
`patch_diff` raises `RuntimeError`. -/
def generate_patch (translator : String → String → String)
    (workspace_view compiler_errors : String) : Except String String :=
  let patch := pstrip (translator workspace_view compiler_errors)
  if patch = "" then
    .error ("Translator did not produce a unified diff. " ++
      "Ensure the LM outputs a valid 'patch_diff' with ---/+++ headers.")
  else .ok patch

/-- The `for iteration in range(self.max_iterations)` loop of
`_compile_with_refinement`, with `fuel = max_iterations - iteration`
(the wrapper passes `fuel = max_iterations`, so the fuel-0 case is
unreachable).  Returns the number of translator invocations made inside
the loop, paired with `(CompilationResult, final workspace text)` or the
propagating error. -/
def refineGo (tool : String → String → PatchToolRun)
    (compile : String → Bool × String)
    (translator : String → String → String) (max_iterations : Nat) :
    Nat → Nat → String → String → String → String →
      Nat × Except String (CompilationResult × String)
  | 0, _, _, _, _, _ => (0, .error "refinement loop fuel exhausted")
  | fuel + 1, iteration, text, view, pending, _errors =>
    let continueWith : String → String → String →
        Nat × Except String (CompilationResult × String) :=
      fun text' view' errors' =>
        if max_iterations - 1 ≤ iteration then
          (0, .ok (⟨false, iteration + 1, some errors'⟩, text'))
        else
          match generate_patch translator view' errors' with
          | .error e => (1, .error e)
          | .ok p =>
            let out := refineGo tool compile translator max_iterations
              fuel (iteration + 1) text' view' p errors'
            (out.1 + 1, out.2)
    if pending ≠ "" then
      let snapshot := text
      let applied := apply_patch tool text pending
      if applied.success then
        let compiled := compile applied.buffer
        if compiled.1 then
          (0, .ok (⟨true, iteration + 1, none⟩, applied.buffer))
        else
          continueWith snapshot snapshot compiled.2
      else
        continueWith snapshot view ("Failed to apply patch: " ++ applied.error)
    else
      continueWith text view "Missing patch diff from model"

/-- `workspace_context or workspace_handle.current_text()`: Python `or`
falls through on `None` and on the empty string. -/
def workspace_view (workspace_context : Option String) (workspace_text : String) : String :=
  match workspace_context with
  | some s => if s = "" then workspace_text else s
  | none => workspace_text

/-- `_compile_with_refinement` (patch path): with `max_iterations = 0`
the Python loop body never runs and `iteration + 1` raises
`UnboundLocalError`. -/
def compile_with_refinement (tool : String → String → PatchToolRun)
    (compile : String → Bool × String)
    (translator : String → String → String) (max_iterations : Nat)
    (workspace_context : Option String) (initial_patch workspace_text : String) :
    Nat × Except String (CompilationResult × String) :=
  if max_iterations = 0 then
    (0, .error "UnboundLocalError: local variable 'iteration' referenced before assignment")
  else
    refineGo tool compile translator max_iterations max_iterations 0
      workspace_text (workspace_view workspace_context workspace_text) initial_patch ""

/-- `IRENEPipeline.translate`, patch-based core: one initial
`_generate_patch` then `_compile_with_refinement`; the final workspace
text is the returned `rust_code`.  The count is the total number of
translator invocations. -/
def translate (tool : String → String → PatchToolRun)
    (compile : String → Bool × String)
    (translator : String → String → String) (max_iterations : Nat)
    (workspace_text : String) (workspace_context : Option String) :
    Nat × Except String (CompilationResult × String) :=
  match generate_patch translator (workspace_view workspace_context workspace_text) "" with
  | .error e => (1, .error e)
  | .ok initial_patch =>
    let out := compile_with_refinement tool compile translator max_iterations
      workspace_context initial_patch workspace_text
    (out.1 + 1, out.2)

/-- The diagnostic one apply-or-compile attempt produces against a given
workspace text: the apply error when the patch does not apply, otherwise
the compiler's diagnostics for the patched text. -/
def attemptDiag (tool : String → String → PatchToolRun)
    (compile : String → Bool × String) (patch text : String) : String :=
  let applied := apply_patch tool text patch
  if applied.success then (compile applied.buffer).2
  else "Failed to apply patch: " ++ applied.error

/-- `IRENEPipeline._build_context`. -/
def build_context (kind name : String) : String :=
  let parts := (if kind ≠ "" then ["kind: " ++ kind] else []) ++
    (if name ≠ "" then ["name: " ++ name] else [])
  if parts = [] then "general declaration" else ", ".intercalate parts

/-- `IRENEPipeline._combine_declaration_code`. -/
def combine_declaration_code (declarations : List DeclarationRecord) : String :=
  "\n\n".intercalate (declarations.filterMap (fun decl =>
    let code := pstrip decl.code
    if code = "" then none
    else some ("// Declaration: " ++ decl.name ++ " (" ++ decl.kind ++ ")\n" ++ code)))

/-- `IRENEPipeline._summaries_for_declarations`; the DSPy summarizer is
abstracted as a function from `(c_code, declaration_context)` to
`(arguments, outputs, function)`. -/
def summaries_for_declarations (summarizer : String → String → String × String × String)
    (declarations : List DeclarationRecord) : List SummaryEntry :=
  declarations.filterMap (fun decl =>
    let code := pstrip decl.code
    if code = "" then none
    else
      let s := summarizer code (build_context decl.kind decl.name)
      some ⟨decl.name, decl.kind, s.1, s.2.1, s.2.2⟩)

/-- One per-run result entry of `translate_project`. -/
structure ProjectEntry where
  scc_index : Nat
  declarations : List String
  success : Bool
  iterations : Nat
  errors : Option String
  deriving DecidableEq, Repr

/-- The `for component in components` loop of
`IRENEPipeline.translate_project`, threading the workspace text, the
per-component summary map, and the accumulated results.  Any exception
from `translate` propagates (there is no `try` in the source loop). -/
def translateProjectGo (tool : String → String → PatchToolRun)
    (compile : String → Bool × String)
    (translator : String → String → String)
    (summarizer : String → String → String × String × String)
    (max_iterations : Nat) (deps : List (Nat × List Nat)) :
    List SCCComponent → String → List (Nat × List SummaryEntry) →
      List ProjectEntry → Except String (List ProjectEntry × String)
  | [], text, _, acc => .ok (acc, text)
  | component :: rest, text, summariesMap, acc =>
    let c_source := combine_declaration_code component.declarations
    if pstrip c_source = "" then
      translateProjectGo tool compile translator summarizer max_iterations deps
        rest text summariesMap acc
    else
      let declaration_summaries := summaries_for_declarations summarizer component.declarations
      let _dependency_context :=
        build_dependency_context component.index deps summariesMap 2 12
      match translate tool compile translator max_iterations text (some text) with
      | (_, .error e) => .error e
      | (_, .ok (result, text')) =>
        translateProjectGo tool compile translator summarizer max_iterations deps
          rest text'
          (assocUpdate summariesMap component.index declaration_summaries)
          (acc ++ [⟨component.index, component.declarations.map (·.name),
            result.success, result.iterations, result.errors⟩])

/-- `IRENEPipeline.translate_project`: iterate the dependency-ordered
components over a fresh workspace; a cyclic condensation would raise in
`components()` (modelled as `Except.error`). -/
def translate_project (tool : String → String → PatchToolRun)
    (compile : String → Bool × String)
    (translator : String → String → String)
    (summarizer : String → String → String × String × String)
    (max_iterations : Nat) (pg : ProjectGraph) :
    Except String (List ProjectEntry × String) :=
  match pg.components with
  | none => .error "NetworkXUnfeasible: graph contains a cycle"
  | some components =>
    if components = [] then .ok ([], "")
    else
      let deps := map_component_dependencies pg.graph components
      translateProjectGo tool compile translator summarizer max_iterations deps
        components "" [] []

theorem generate_patch_ok {translator : String → String → String} {v e : String}
    (hg : pstrip (translator v e) ≠ "") :
    generate_patch translator v e = .ok (pstrip (translator v e)) := by
  unfold generate_patch
  rw [if_neg hg]

/-- If the compiler oracle never succeeds (and the translator always
produces a non-blank diff), the refinement loop exhausts its budget:
`success = false`, `iterations = max_iterations`, the error field holds
the diagnostic of a final attempt made against the untouched pre-component
text, and the workspace text is restored to its starting value. -/
theorem refineGo_compile_never (tool : String → String → PatchToolRun)
    (compile : String → Bool × String) (translator : String → String → String)
    (max_iterations : Nat)
    (hc : ∀ s, (compile s).1 = false)
    (hg : ∀ v e, pstrip (translator v e) ≠ "") :
    ∀ fuel : Nat, 1 ≤ fuel → ∀ iteration : Nat, iteration + fuel = max_iterations →
      ∀ text view pending errors : String, pending ≠ "" →
      ∃ n q, q ≠ "" ∧
        refineGo tool compile translator max_iterations fuel iteration
            text view pending errors =
          (n, .ok (⟨false, max_iterations, some (attemptDiag tool compile q text)⟩,
            text)) := by
  intro fuel
  induction fuel with
  | zero => intro h; cases h
  | succ fuel ih =>
    intro _ iteration hiter text view pending errors hp
    simp only [refineGo]
    rw [if_pos hp]
    by_cases ha : (apply_patch tool text pending).success = true
    · rw [if_pos ha]
      have hcf : (compile (apply_patch tool text pending).buffer).1 = false := hc _
      rw [if_neg (by rw [hcf]; exact Bool.false_ne_true)]
      cases fuel with
      | zero =>
        have hbreak : max_iterations - 1 ≤ iteration := by omega
        rw [if_pos hbreak]
        refine ⟨0, pending, hp, ?_⟩
        have h1 : iteration + 1 = max_iterations := by omega
        rw [h1]
        simp only [attemptDiag]
        rw [if_pos ha]
      | succ fuel' =>
        have hbreak : ¬ max_iterations - 1 ≤ iteration := by omega
        rw [if_neg hbreak]
        rw [generate_patch_ok (hg _ _)]
        simp only
        obtain ⟨n, q, hq, heq⟩ := ih (Nat.succ_le_succ (Nat.zero_le _)) (iteration + 1)
          (by omega) text text
          (pstrip (translator text (compile (apply_patch tool text pending).buffer).2))
          (compile (apply_patch tool text pending).buffer).2 (hg _ _)
        exact ⟨n + 1, q, hq, by rw [heq]⟩
    · rw [if_neg ha]
      cases fuel with
      | zero =>
        have hbreak : max_iterations - 1 ≤ iteration := by omega
        rw [if_pos hbreak]
        refine ⟨0, pending, hp, ?_⟩
        have h1 : iteration + 1 = max_iterations := by omega
        rw [h1]
        simp only [attemptDiag]
        rw [if_neg ha]
      | succ fuel' =>
        have hbreak : ¬ max_iterations - 1 ≤ iteration := by omega
        rw [if_neg hbreak]
        rw [generate_patch_ok (hg _ _)]
        simp only
        obtain ⟨n, q, hq, heq⟩ := ih (Nat.succ_le_succ (Nat.zero_le _)) (iteration + 1)
          (by omega) text view
          (pstrip (translator view
            ("Failed to apply patch: " ++ (apply_patch tool text pending).error)))
          ("Failed to apply patch: " ++ (apply_patch tool text pending).error) (hg _ _)
        exact ⟨n + 1, q, hq, by rw [heq]⟩

/-- The loop makes at most `fuel - 1` corrective translator calls. -/
theorem refineGo_genCalls_le (tool : String → String → PatchToolRun)
    (compile : String → Bool × String) (translator : String → String → String)
    (max_iterations : Nat) :
    ∀ fuel : Nat, 1 ≤ fuel → ∀ iteration : Nat, iteration + fuel = max_iterations →
      ∀ text view pending errors : String,
      (refineGo tool compile translator max_iterations fuel iteration
        text view pending errors).1 ≤ fuel - 1 := by
  intro fuel
  induction fuel with
  | zero => intro h; cases h
  | succ fuel ih =>
    intro _ iteration hiter text view pending errors
    simp only [refineGo]
    have hcont : ∀ text' view' errors' : String,
        (if max_iterations - 1 ≤ iteration then
          (0, Except.ok (⟨false, iteration + 1, some errors'⟩, text'))
        else
          match generate_patch translator view' errors' with
          | .error e => (1, .error e)
          | .ok p =>
            let out := refineGo tool compile translator max_iterations
              fuel (iteration + 1) text' view' p errors'
            (out.1 + 1, out.2) : Nat × Except String (CompilationResult × String)).1 ≤
          fuel + 1 - 1 := by
      intro text' view' errors'
      by_cases hbreak : max_iterations - 1 ≤ iteration
      · rw [if_pos hbreak]
        exact Nat.zero_le _
      · rw [if_neg hbreak]
        have hf : 1 ≤ fuel := by omega
        cases hgp : generate_patch translator view' errors' with
        | error e => simp; omega
        | ok p =>
          simp only
          have := ih hf (iteration + 1) (by omega) text' view' p errors'
          omega
    by_cases hp : pending ≠ ""
    · rw [if_pos hp]
      by_cases ha : (apply_patch tool text pending).success = true
      · rw [if_pos ha]
        by_cases hcs : (compile (apply_patch tool text pending).buffer).1 = true
        · rw [if_pos hcs]
          exact Nat.zero_le _
        · rw [if_neg hcs]
          exact hcont _ _ _
      · rw [if_neg ha]
        exact hcont _ _ _
    · rw [if_neg hp]
      exact hcont _ _ _

/-- With a translator that always produces a non-blank diff the loop
never raises, and a failed component always carries an error text. -/
theorem refineGo_ok (tool : String → String → PatchToolRun)
    (compile : String → Bool × String) (translator : String → String → String)
    (max_iterations : Nat)
    (hg : ∀ v e, pstrip (translator v e) ≠ "") :
    ∀ fuel : Nat, 1 ≤ fuel → ∀ iteration : Nat, iteration + fuel = max_iterations →
      ∀ text view pending errors : String,
      ∃ n res finalText,
        refineGo tool compile translator max_iterations fuel iteration
            text view pending errors = (n, .ok (res, finalText)) ∧
        (res.success = false → res.errors.isSome) := by
  intro fuel
  induction fuel with
  | zero => intro h; cases h
  | succ fuel ih =>
    intro _ iteration hiter text view pending errors
    simp only [refineGo]
    have hcont : ∀ text' view' errors' : String,
        ∃ n res finalText,
          (if max_iterations - 1 ≤ iteration then
            (0, Except.ok (⟨false, iteration + 1, some errors'⟩, text'))
          else
            match generate_patch translator view' errors' with
            | .error e => (1, .error e)
            | .ok p =>
              let out := refineGo tool compile translator max_iterations
                fuel (iteration + 1) text' view' p errors'
              (out.1 + 1, out.2) : Nat × Except String (CompilationResult × String)) =
            (n, .ok (res, finalText)) ∧
          (res.success = false → res.errors.isSome) := by
      intro text' view' errors'
      by_cases hbreak : max_iterations - 1 ≤ iteration
      · rw [if_pos hbreak]
        exact ⟨0, ⟨false, iteration + 1, some errors'⟩, text', rfl, fun _ => rfl⟩
      · rw [if_neg hbreak]
        have hf : 1 ≤ fuel := by omega
        rw [generate_patch_ok (hg _ _)]
        simp only
        obtain ⟨n, res, ft, heq, himp⟩ := ih hf (iteration + 1) (by omega)
          text' view' (pstrip (translator view' errors')) errors'
        exact ⟨n + 1, res, ft, by rw [heq], himp⟩
    by_cases hp : pending ≠ ""
    · rw [if_pos hp]
      by_cases ha : (apply_patch tool text pending).success = true
      · rw [if_pos ha]
        by_cases hcs : (compile (apply_patch tool text pending).buffer).1 = true
        · rw [if_pos hcs]
          exact ⟨0, ⟨true, iteration + 1, none⟩, (apply_patch tool text pending).buffer,
            rfl, fun h => by cases h⟩
        · rw [if_neg hcs]
          exact hcont _ _ _
      · rw [if_neg ha]
        exact hcont _ _ _
    · rw [if_neg hp]
      exact hcont _ _ _

/-- C1 at the `translate` level: when the compiler oracle never succeeds,
the per-component result is `success = false`,
`iterations = max_iterations`, the last diagnostic (of an attempt against
the untouched pre-component text) is attached, and the workspace text is
exactly its pre-component value. -/
theorem translate_compile_never (tool : String → String → PatchToolRun)
    (compile : String → Bool × String) (translator : String → String → String)
    {max_iterations : Nat} (hmax : 1 ≤ max_iterations)
    (hc : ∀ s, (compile s).1 = false)
    (hg : ∀ v e, pstrip (translator v e) ≠ "")
    (text : String) (ctx : Option String) :
    ∃ n q, q ≠ "" ∧
      translate tool compile translator max_iterations text ctx =
        (n, .ok (⟨false, max_iterations, some (attemptDiag tool compile q text)⟩,
          text)) := by
  unfold translate
  rw [generate_patch_ok (hg _ _)]
  simp only
  unfold compile_with_refinement
  rw [if_neg (by omega : ¬ max_iterations = 0)]
  obtain ⟨n, q, hq, heq⟩ := refineGo_compile_never tool compile translator
    max_iterations hc hg max_iterations hmax 0 (by omega) text
    (workspace_view ctx text) (pstrip (translator (workspace_view ctx text) "")) ""
    (hg _ _)
  exact ⟨n + 1, q, hq, by rw [heq]⟩

/-- C4 at the `translate` level: at most `max_iterations` translator
invocations (one initial plus at most `max_iterations - 1` corrective). -/
theorem translate_genCalls_le (tool : String → String → PatchToolRun)
    (compile : String → Bool × String) (translator : String → String → String)
    {max_iterations : Nat} (hmax : 1 ≤ max_iterations)
    (text : String) (ctx : Option String) :
    (translate tool compile translator max_iterations text ctx).1 ≤ max_iterations := by
  unfold translate
  cases hgp : generate_patch translator (workspace_view ctx text) "" with
  | error e => simpa using hmax
  | ok p =>
    simp only
    unfold compile_with_refinement
    rw [if_neg (by omega : ¬ max_iterations = 0)]
    have := refineGo_genCalls_le tool compile translator max_iterations
      max_iterations hmax 0 (by omega) text (workspace_view ctx text) p ""
    omega

theorem translate_ok (tool : String → String → PatchToolRun)
    (compile : String → Bool × String) (translator : String → String → String)
    {max_iterations : Nat} (hmax : 1 ≤ max_iterations)
    (hg : ∀ v e, pstrip (translator v e) ≠ "")
    (text : String) (ctx : Option String) :
    ∃ n res finalText,
      translate tool compile translator max_iterations text ctx =
        (n, .ok (res, finalText)) ∧
      (res.success = false → res.errors.isSome) := by
  unfold translate
  rw [generate_patch_ok (hg _ _)]
  simp only
  unfold compile_with_refinement
  rw [if_neg (by omega : ¬ max_iterations = 0)]
  obtain ⟨n, res, ft, heq, himp⟩ := refineGo_ok tool compile translator
    max_iterations hg max_iterations hmax 0 (by omega) text
    (workspace_view ctx text) (pstrip (translator (workspace_view ctx text) "")) ""
  exact ⟨n + 1, res, ft, by rw [heq], himp⟩

theorem translateProjectGo_ok (tool : String → String → PatchToolRun)
    (compile : String → Bool × String) (translator : String → String → String)
    (summarizer : String → String → String × String × String)
    {max_iterations : Nat} (hmax : 1 ≤ max_iterations)
    (hg : ∀ v e, pstrip (translator v e) ≠ "")
    (deps : List (Nat × List Nat)) :
    ∀ (comps : List SCCComponent) (text : String)
      (sm : List (Nat × List SummaryEntry)) (acc : List ProjectEntry),
      ∃ entries finalText,
        translateProjectGo tool compile translator summarizer max_iterations deps
            comps text sm acc = .ok (entries, finalText) ∧
        entries.length = acc.length + (comps.filter (fun c =>
          decide (pstrip (combine_declaration_code c.declarations) ≠ ""))).length ∧
        ∀ e ∈ entries, e ∈ acc ∨ (e.success = false → e.errors.isSome) := by
  intro comps
  induction comps with
  | nil =>
    intro text sm acc
    exact ⟨acc, text, rfl, by simp, fun e he => Or.inl he⟩
  | cons component rest ih =>
    intro text sm acc
    simp only [translateProjectGo]
    by_cases hskip : pstrip (combine_declaration_code component.declarations) = ""
    · rw [if_pos hskip]
      obtain ⟨entries, ft, heq, hlen, hmem⟩ := ih text sm acc
      refine ⟨entries, ft, heq, ?_, hmem⟩
      rw [hlen]
      congr 1
      rw [List.filter_cons]
      rw [if_neg (by simpa using hskip)]
    · rw [if_neg hskip]
      obtain ⟨n, res, text', htr, himp⟩ :=
        translate_ok tool compile translator hmax hg text (some text)
      rw [htr]
      simp only
      obtain ⟨entries, ft, heq, hlen, hmem⟩ := ih text'
        (assocUpdate sm component.index
          (summaries_for_declarations summarizer component.declarations))
        (acc ++ [⟨component.index, component.declarations.map (·.name),
          res.success, res.iterations, res.errors⟩])
      refine ⟨entries, ft, heq, ?_, ?_⟩
      · rw [hlen, List.filter_cons, if_pos (by simpa using hskip)]
        simp
        omega
      · intro e he
        rcases hmem e he with hacc | hprop
        · rcases List.mem_append.mp hacc with hacc | hnew
          · exact Or.inl hacc
          · have : e = ⟨component.index, component.declarations.map (·.name),
                res.success, res.iterations, res.errors⟩ := by simpa using hnew
            refine Or.inr ?_
            rw [this]
            intro hfail
            exact himp hfail
        · exact Or.inr hprop

/-- Amended C5: provided the translator always returns a non-blank diff,
no per-component failure aborts the run — every component with
extractable code contributes exactly one result entry (failed ones carry
their last error) and the orchestrator reaches the end of the component
list. -/
theorem translate_project_no_abort (tool : String → String → PatchToolRun)
    (compile : String → Bool × String) (translator : String → String → String)
    (summarizer : String → String → String × String × String)
    {max_iterations : Nat} (hmax : 1 ≤ max_iterations)
    (hg : ∀ v e, pstrip (translator v e) ≠ "")
    (pg : ProjectGraph) {comps : List SCCComponent}
    (hcomp : pg.components = some comps) :
    ∃ entries finalText,
      translate_project tool compile translator summarizer max_iterations pg =
        .ok (entries, finalText) ∧
      entries.length = (comps.filter (fun c =>
        decide (pstrip (combine_declaration_code c.declarations) ≠ ""))).length ∧
      ∀ e ∈ entries, e.success = false → e.errors.isSome := by
  unfold translate_project
  rw [hcomp]
  by_cases hnil : comps = []
  · subst hnil
    exact ⟨[], "", by simp, by simp, fun e he => absurd he (List.not_mem_nil e)⟩
  · simp only [if_neg hnil]
    obtain ⟨entries, ft, heq, hlen, hmem⟩ := translateProjectGo_ok tool compile
      translator summarizer hmax hg (map_component_dependencies pg.graph comps)
      comps "" [] []
    refine ⟨entries, ft, heq, by simpa using hlen, ?_⟩
    intro e he hfail
    rcases hmem e he with hacc | hprop
    · cases hacc
    · exact hprop hfail

/-- Amended C3: on upsert of an existing id, the canonical name, kind and
path are retained, `extraLocations` and the hint list become the union of
both records' values (hints deduplicated by the
`(category, snippet, suggestion, explanation)` key), and the aliases gain
exactly the new record's name when it differs — the new record's own
alias set is not merged. -/
theorem mergeRecords_spec (existing new_record : DeclarationRecord) :
    (mergeRecords existing new_record).name = existing.name ∧
    (mergeRecords existing new_record).kind = existing.kind ∧
    (mergeRecords existing new_record).path = existing.path ∧
    (∀ a, a ∈ (mergeRecords existing new_record).aliases ↔
      a ∈ existing.aliases ∨ (a = new_record.name ∧ existing.name ≠ new_record.name)) ∧
    (∀ loc, loc ∈ (mergeRecords existing new_record).extra_locations ↔
      loc ∈ existing.extra_locations ∨ loc ∈ new_record.extra_locations) ∧
    (∀ k, k ∈ (mergeRecords existing new_record).rule_hints.map hintKey ↔
      k ∈ existing.rule_hints.map hintKey ∨ k ∈ new_record.rule_hints.map hintKey) := by
  refine ⟨rfl, rfl, rfl, ?_, ?_, ?_⟩
  · intro a
    show a ∈ (if existing.name ≠ new_record.name then
        setInsert existing.aliases new_record.name else existing.aliases) ↔ _
    by_cases hne : existing.name ≠ new_record.name
    · rw [if_pos hne, mem_setInsert]
      constructor
      · rintro (h | h)
        · exact Or.inl h
        · exact Or.inr ⟨h, hne⟩
      · rintro (h | ⟨h, _⟩)
        · exact Or.inl h
        · exact Or.inr h
    · rw [if_neg hne]
      constructor
      · exact Or.inl
      · rintro (h | ⟨_, h⟩)
        · exact h
        · exact absurd h hne
  · intro loc
    exact mem_setUnion
  · intro k
    exact mem_map_hintKey_mergeRuleHints _ _ k

theorem collect_keeps_self_call {definitions : List DefnEntry} {d : DefnEntry}
    (idOf : String → String) (hints : List RuleHint) (path : String)
    (hd : d ∈ definitions)
    (h1 : (d.name, d.name, "call") ∈ (build_dependency_graph definitions).edges) :
    (idOf d.name, idOf d.name, "call") ∈
      (collect_translation_unit_data (build_dependency_graph definitions)
        definitions idOf hints path).edges := by
  unfold collect_translation_unit_data
  simp only
  refine List.mem_map.mpr ⟨(d.name, d.name, "call"), ?_, rfl⟩
  rw [List.mem_filter]
  refine ⟨h1, ?_⟩
  have hmem : d.name ∈ definitions.map (·.name) := List.mem_map_of_mem _ hd
  simp only [decide_eq_true_eq]
  exact ⟨hmem, hmem⟩

/-- Amended C6: call self-edges are retained in the per-unit graph and
survive into the merged project graph. -/
theorem self_call_edge_retained (definitions : List DefnEntry) (d : DefnEntry)
    (units : List TranslationUnitData) (idOf : String → String)
    (hints : List RuleHint) (path : String)
    (hd : d ∈ definitions) (href : RefNode.callExpr d.name ∈ d.refs)
    (hname : d.name ≠ "")
    (hu : collect_translation_unit_data (build_dependency_graph definitions)
        definitions idOf hints path ∈ units) :
    (d.name, d.name, "call") ∈ (build_dependency_graph definitions).edges ∧
    (idOf d.name, idOf d.name) ∈ edgePairs (build_project_graph units).graph := by
  have h1 := build_dependency_graph_self_call definitions d hd href hname
  refine ⟨h1, ?_⟩
  have hcoll := collect_keeps_self_call idOf hints path hd h1
  have hacc := builder_edges_accumulate hu hcoll
  unfold build_project_graph ProjectGraphBuilder.build
  exact edgePairs_buildGraph hacc

/-- C8: a whitespace-only diff is rejected before the external tool is
ever invoked and leaves the buffer untouched. -/
theorem apply_patch_rejects_blank (tool : String → String → PatchToolRun)
    (buffer diffText : String) (h : ∀ c ∈ diffText.data, isPyWS c = true) :
    apply_patch tool buffer diffText =
      { success := false, error := "Empty patch", buffer := buffer, toolCalls := 0 } := by
  unfold apply_patch
  rw [if_pos (pstrip_of_all_ws h)]

/-! ## Concrete example inputs used by witnesses and counterexamples -/

def exampleRecord (n : String) : DeclarationRecord :=
  ⟨"c:@F@" ++ n, n, "function", "ex.c", some 1, some 1, "int " ++ n ++ "(void);",
    [], [], []⟩

/-- Two declarations, `a` calls `b`. -/
def exampleGraph : DiGraph := ⟨["a", "b"], [("a", "b", "call")]⟩

def exampleDecls : List (String × DeclarationRecord) :=
  [("a", exampleRecord "a"), ("b", exampleRecord "b")]

def exampleComponents : List SCCComponent :=
  [⟨1, ["a"], [exampleRecord "a"]⟩, ⟨2, ["b"], [exampleRecord "b"]⟩]

def exampleSummaries : List (Nat × List SummaryEntry) :=
  [(1, [⟨"a", "function", "none", "int", "returns a constant"⟩])]

/-- A `patch` run that always fails, leaving the buffer as it was. -/
def exampleTool : String → String → PatchToolRun :=
  fun _ buffer => ⟨1, "", "1 out of 1 hunk FAILED", buffer⟩

def exampleCompile : String → Bool × String :=
  fun _ => (false, "error[E0308]: mismatched types")

def exampleTranslator : String → String → String :=
  fun _ _ => "--- ws.rs\n+++ ws.rs\n@@ -0,0 +1 @@\n+fn a() {}"

def exampleSummarizer : String → String → String × String × String :=
  fun _ _ => ("none", "int", "example")

/-- A definition with a direct-recursion call to itself. -/
def exampleRecDefn : DefnEntry :=
  ⟨"f", "function", some 1, some 1, "int f(int n) { return n ? f(n-1) : 0; }",
    [RefNode.callExpr "f"]⟩

def exampleUnit : TranslationUnitData :=
  collect_translation_unit_data (build_dependency_graph [exampleRecDefn])
    [exampleRecDefn] (fun n => "c:@F@" ++ n) [] "ex.c"

/-- A struct whose body type-references itself (`struct s *next`). -/
def exampleStructDefn : DefnEntry :=
  ⟨"s", "struct", some 1, some 1, "struct s { struct s *next; };",
    [RefNode.typeRef "s"]⟩

def mergeExistingExample : DeclarationRecord :=
  ⟨"c:@F@n", "n", "function", "a.c", some 3, some 1, "int n(void);", [], [], []⟩

def mergeNewExample : DeclarationRecord :=
  { mergeExistingExample with path := "b.c", aliases := ["zed"] }

theorem exampleTranslator_nonblank (v e : String) :
    pstrip (exampleTranslator v e) ≠ "" := by
  show pstrip "--- ws.rs\n+++ ws.rs\n@@ -0,0 +1 @@\n+fn a() {}" ≠ ""
  decide

/-! ## Claim theorems -/

/-- C2: for every condensation edge from component X to component Y
(a project-graph edge between members of distinct components), the
Component Decomposer assigns X a strictly smaller index than Y, and
indices are sequential starting at 1 in topological-sort order. -/
theorem components_condensation_topological (g : DiGraph)
    (decls : List (String × DeclarationRecord)) (comps : List SCCComponent)
    (hcomp : ProjectGraph.components ⟨g, decls⟩ = some comps)
    (hdecl : ∀ n ∈ g.nodes, (decls.lookup n).isSome) :
    (∀ i (hi : i < comps.length), comps[i].index = i + 1) ∧
    (∀ u v r, (u, v, r) ∈ g.edges →
      ∀ X ∈ comps, ∀ Y ∈ comps, u ∈ X.declaration_ids → v ∈ Y.declaration_ids →
        X.index ≠ Y.index → X.index < Y.index) :=
  components_topological g decls comps hcomp hdecl

theorem components_condensation_topological_witness :
    (ProjectGraph.components ⟨exampleGraph, exampleDecls⟩ = some exampleComponents) ∧
    (∀ n ∈ exampleGraph.nodes, ((exampleDecls.lookup n).isSome)) ∧
    ((∀ i (hi : i < exampleComponents.length), exampleComponents[i].index = i + 1) ∧
      (∀ u v r, (u, v, r) ∈ exampleGraph.edges →
        ∀ X ∈ exampleComponents, ∀ Y ∈ exampleComponents,
          u ∈ X.declaration_ids → v ∈ Y.declaration_ids →
          X.index ≠ Y.index → X.index < Y.index)) :=
  ⟨by decide, by decide,
    components_condensation_topological exampleGraph exampleDecls exampleComponents
      (by decide) (by decide)⟩

/-- C1 for the claims ledger: with a compiler oracle that never succeeds
within the budget, `translate` reports `success = false` with
`iterations = max_iterations`, attaches the diagnostic of the last
attempt (made against the restored pre-component text), and leaves the
workspace text equal to its value at component start. -/
theorem translate_exhaustion_restores_workspace (tool : String → String → PatchToolRun)
    (compile : String → Bool × String) (translator : String → String → String)
    {max_iterations : Nat} (hmax : 1 ≤ max_iterations)
    (hc : ∀ s, (compile s).1 = false)
    (hg : ∀ v e, pstrip (translator v e) ≠ "")
    (text : String) (ctx : Option String) :
    ∃ n q, q ≠ "" ∧
      translate tool compile translator max_iterations text ctx =
        (n, .ok (⟨false, max_iterations, some (attemptDiag tool compile q text)⟩,
          text)) :=
  translate_compile_never tool compile translator hmax hc hg text ctx

theorem translate_exhaustion_restores_workspace_witness :
    (1 ≤ 2) ∧
    (∀ s, (exampleCompile s).1 = false) ∧
    (∀ v e, pstrip (exampleTranslator v e) ≠ "") ∧
    ∃ n q, q ≠ "" ∧
      translate exampleTool exampleCompile exampleTranslator 2 "fn b() {}" none =
        (n, .ok (⟨false, 2, some (attemptDiag exampleTool exampleCompile q "fn b() {}")⟩,
          "fn b() {}")) :=
  ⟨by omega, fun _ => rfl, exampleTranslator_nonblank,
    translate_exhaustion_restores_workspace exampleTool exampleCompile
      exampleTranslator (by omega) (fun _ => rfl) exampleTranslator_nonblank
      "fn b() {}" none⟩

/-- C4: for any component the number of Code-Generation Oracle
invocations made by `translate` (one initial plus the corrective
re-generations of the refinement loop) never exceeds `max_iterations`. -/
theorem translate_oracle_calls_bounded (tool : String → String → PatchToolRun)
    (compile : String → Bool × String) (translator : String → String → String)
    {max_iterations : Nat} (hmax : 1 ≤ max_iterations)
    (text : String) (ctx : Option String) :
    (translate tool compile translator max_iterations text ctx).1 ≤ max_iterations :=
  translate_genCalls_le tool compile translator hmax text ctx

theorem translate_oracle_calls_bounded_witness :
    (1 ≤ 3) ∧
    (translate exampleTool exampleCompile exampleTranslator 3 "" none).1 ≤ 3 :=
  ⟨by omega,
    translate_oracle_calls_bounded exampleTool exampleCompile exampleTranslator
      (by omega) "" none⟩

/-- C5 counterexample: a missing/empty patch from the Code-Generation
Oracle on the very first component raises, aborting the whole project
run (no entry for either component is returned), contradicting the
"no global abort" claim. -/
theorem translate_project_missing_patch_aborts :
    exampleComponents.length = 2 ∧
    translate_project exampleTool exampleCompile (fun _ _ => "")
        exampleSummarizer 3 ⟨exampleGraph, exampleDecls⟩ =
      .error ("Translator did not produce a unified diff. " ++
        "Ensure the LM outputs a valid 'patch_diff' with ---/+++ headers.") :=
  ⟨by decide, by rfl⟩

/-- Amended C5 for the claims ledger: apply- and compile-failures never
abort the run — with a translator that always emits a non-blank diff,
every component with extractable code yields exactly one result entry
(failed components carrying their last error text) and the run reaches
the end of the component list; only a blank diff raises and aborts. -/
theorem translate_project_continues_on_failure (tool : String → String → PatchToolRun)
    (compile : String → Bool × String) (translator : String → String → String)
    (summarizer : String → String → String × String × String)
    {max_iterations : Nat} (hmax : 1 ≤ max_iterations)
    (hg : ∀ v e, pstrip (translator v e) ≠ "")
    (pg : ProjectGraph) {comps : List SCCComponent}
    (hcomp : pg.components = some comps) :
    ∃ entries finalText,
      translate_project tool compile translator summarizer max_iterations pg =
        .ok (entries, finalText) ∧
      entries.length = (comps.filter (fun c =>
        decide (pstrip (combine_declaration_code c.declarations) ≠ ""))).length ∧
      ∀ e ∈ entries, e.success = false → e.errors.isSome :=
  translate_project_no_abort tool compile translator summarizer hmax hg pg hcomp

theorem translate_project_continues_on_failure_witness :
    (1 ≤ 2) ∧
    (∀ v e, pstrip (exampleTranslator v e) ≠ "") ∧
    (ProjectGraph.components ⟨exampleGraph, exampleDecls⟩ = some exampleComponents) ∧
    ∃ entries finalText,
      translate_project exampleTool exampleCompile exampleTranslator
          exampleSummarizer 2 ⟨exampleGraph, exampleDecls⟩ =
        .ok (entries, finalText) ∧
      entries.length = (exampleComponents.filter (fun c =>
        decide (pstrip (combine_declaration_code c.declarations) ≠ ""))).length ∧
      ∀ e ∈ entries, e.success = false → e.errors.isSome :=
  ⟨by omega, exampleTranslator_nonblank, by decide,
    translate_project_continues_on_failure exampleTool exampleCompile
      exampleTranslator exampleSummarizer (by omega) exampleTranslator_nonblank
      ⟨exampleGraph, exampleDecls⟩ (by decide)⟩

/-- C6 counterexample: a declaration whose only self-reference is a
`TYPE_REF` to itself yields no edge at all — the self type-reference
edge is explicitly skipped by `build_dependency_graph`. -/
theorem typeref_self_edge_dropped :
    RefNode.typeRef "s" ∈ exampleStructDefn.refs ∧
    (build_dependency_graph [exampleStructDefn]).edges = [] :=
  ⟨by decide, by decide⟩

theorem self_call_edge_retained_witness :
    (exampleRecDefn ∈ [exampleRecDefn]) ∧
    (RefNode.callExpr exampleRecDefn.name ∈ exampleRecDefn.refs) ∧
    (exampleRecDefn.name ≠ "") ∧
    (exampleUnit ∈ [exampleUnit]) ∧
    ((exampleRecDefn.name, exampleRecDefn.name, "call") ∈
      (build_dependency_graph [exampleRecDefn]).edges ∧
    ("c:@F@" ++ exampleRecDefn.name, "c:@F@" ++ exampleRecDefn.name) ∈
      edgePairs (build_project_graph [exampleUnit]).graph) :=
  ⟨by decide, by decide, by decide, List.mem_cons_self _ _,
    self_call_edge_retained [exampleRecDefn] exampleRecDefn [exampleUnit]
      (fun n => "c:@F@" ++ n) [] "ex.c" (by decide) (by decide) (by decide)
      (List.mem_cons_self _ _)⟩

theorem dependency_context_bounded_witness :
    (ProjectGraph.components ⟨exampleGraph, exampleDecls⟩ = some exampleComponents) ∧
    (∀ n ∈ exampleGraph.nodes, ((exampleDecls.lookup n).isSome)) ∧
    ((build_dependency_context_core 2
        (map_component_dependencies exampleGraph exampleComponents)
        exampleSummaries 2 12 16).2.2.length ≤ 12 ∧
      ∀ c ∈ (build_dependency_context_core 2
          (map_component_dependencies exampleGraph exampleComponents)
          exampleSummaries 2 12 16).2.1,
        c < 2 ∧ ∃ d, 1 ≤ d ∧ d ≤ 2 ∧
          UpChain (map_component_dependencies exampleGraph exampleComponents) 2 c d) :=
  ⟨by decide, by decide,
    dependency_context_bounded exampleGraph exampleDecls exampleComponents
      (by decide) (by decide) 2 exampleSummaries 2 12 16⟩

/-- C3 counterexample: the merged record's aliases are not the union of
both records' alias sets — the new record's own aliases are discarded
(only its differing name would be added). -/
theorem mergeRecords_drops_new_alias :
    "zed" ∈ mergeNewExample.aliases ∧
    (mergeRecords mergeExistingExample mergeNewExample).aliases = [] :=
  ⟨by decide, by decide⟩

theorem apply_patch_rejects_blank_witness :
    (∀ c ∈ ("  \n\t" : String).data, isPyWS c = true) ∧
    apply_patch exampleTool "fn main() {}" "  \n\t" =
      { success := false, error := "Empty patch", buffer := "fn main() {}",
        toolCalls := 0 } :=
  ⟨by decide,
    apply_patch_rejects_blank exampleTool "fn main() {}" "  \n\t" (by decide)⟩

/-- C10: merging a duplicate record into an existing one changes only
`aliases`, `extra_locations` and `rule_hints`; identity, naming,
location and source-text fields are untouched. -/
theorem mergeRecords_frame (existing new_record : DeclarationRecord) :
    (mergeRecords existing new_record).decl_id = existing.decl_id ∧
    (mergeRecords existing new_record).name = existing.name ∧
    (mergeRecords existing new_record).kind = existing.kind ∧
    (mergeRecords existing new_record).path = existing.path ∧
    (mergeRecords existing new_record).line = existing.line ∧
    (mergeRecords existing new_record).column = existing.column ∧
    (mergeRecords existing new_record).code = existing.code :=
  ⟨rfl, rfl, rfl, rfl, rfl, rfl, rfl⟩

end Defacc
